import Mathlib

/-!
Sudoku engine (`src/suduko.c`): shallow embedding and verification

The C program keeps every board in an `int[9][9]` array that is passed by
reference and updated in place.  Here a board is a function from a row and a
column index to the integer stored there; a store `board[r][c] = v` becomes
`setCell`, and a C function that writes to a board returns the board it
leaves behind.  Only the cells with both indices below `N = 9` belong to the
array; all statements below speak about those cells.

The pseudo random generator `rand()` is modelled by the stream of the values
it is going to return; a function that draws from it returns the rest of the
stream.  The recursive search (`solve_board`, `fill_board_backtrack`) is
defined by recursion on a fuel counter that bounds the recursion depth; the
result `none` means that the fuel ran out.
-/

namespace Sudoku

/-! ## Data model -/

/-- Side length of the board (`#define N 9`). -/
def N : Nat := 9

/-- Value of an empty cell (`#define EMPTY 0`). -/
def EMPTY : Int := 0

/-- An `int board[N][N]`: the value stored at a row and a column. -/
abbrev Grid := Nat → Nat → Int

/-- The store `board[r][c] = v`. -/
def setCell (board : Grid) (r c : Nat) (v : Int) : Grid :=
  fun i j => if i = r ∧ j = c then v else board i j

/-- A board given by its rows (cells outside the listed ones read as `0`). -/
def ofRows (rows : List (List Int)) : Grid :=
  fun r c => (rows.getD r []).getD c 0

/-- The stream of values that successive calls of `rand()` return. -/
abbrev Rng := Nat → Nat

/-! ## Constraint checker (`is_valid`, lines 63-76) -/

/-- `is_valid(board, row, col, num)`: the first loop returns `0` as soon as
`num` is met in the row or the column, the second one as soon as it is met in
the 3x3 box starting at `(row - row % 3, col - col % 3)`. -/
def is_valid (board : Grid) (row col : Nat) (num : Int) : Bool :=
  if (List.range N).any (fun i => board row i == num || board i col == num) then false
  else
    let startRow := row - row % 3
    let startCol := col - col % 3
    if (List.range 3).any (fun r => (List.range 3).any
        (fun c => board (startRow + r) (startCol + c) == num)) then false
    else true

/-- State-passing form of `is_valid`: the answer together with the board the
call leaves behind.  The function body contains no store to `board`. -/
def is_valid_run (board : Grid) (row col : Nat) (num : Int) : Bool × Grid :=
  (is_valid board row col num, board)

/-! ## Random numbers and shuffling (`randint`, `shuffle_arr`) -/

/-- `randint(a, b)`, lines 34-40: `a + rand() % (b - a + 1)`; the call
consumes the head of the stream.  (The one-time seeding only selects the
stream.)  All calls in the program have `0 = a <= b`. -/
def randint (a b : Nat) (s : Rng) : Nat × Rng :=
  (a + s 0 % (b - a + 1), fun k => s (k + 1))

/-- The three assignments `tmp = arr[i]; arr[i] = arr[j]; arr[j] = tmp`. -/
def swap (arr : List Int) (i j : Nat) : List Int :=
  let tmp := arr.getD i 0
  let arr1 := arr.set i (arr.getD j 0)
  arr1.set j tmp

/-- The loop of `shuffle_arr` with the counter at `i`: the body runs while
`i > 0`, then `i` is decremented. -/
def shuffle_from : Nat → List Int → Rng → List Int × Rng
  | 0, arr, s => (arr, s)
  | i + 1, arr, s =>
    let js := randint 0 (i + 1) s
    shuffle_from i (swap arr (i + 1) js.1) js.2

/-- `shuffle_arr(arr, n)`, lines 106-112: the counter starts at `n - 1`. -/
def shuffle_arr (arr : List Int) (n : Nat) (s : Rng) : List Int × Rng :=
  shuffle_from (n - 1) arr s

/-! ## Backtracking search (`find_empty`, `solve_board`, `fill_board_backtrack`) -/

/-- `find_empty`, lines 78-86: the first empty cell in row-major order. -/
def find_empty (board : Grid) : Option (Nat × Nat) :=
  (List.range N).findSome? (fun r =>
    (List.range N).findSome? (fun c =>
      if board r c = EMPTY then some (r, c) else none))

/-- The candidate list `nums[i] = i + 1` for `i < N`. -/
def init_nums : List Int := (List.range N).map (fun (i : Nat) => (i : Int) + 1)

/-- The candidate loop shared by `solve_board` and `fill_board_backtrack`
(lines 95-102 and 126-133); `recur` is the recursive call.  A valid candidate
is stored in the cell; when the recursive call fails the cell is cleared in
the board that call left behind and the loop goes on; the function returns
`0` after the last candidate. -/
def try_nums (recur : Grid → Rng → Option (Bool × Grid × Rng)) (row col : Nat) :
    List Int → Grid → Rng → Option (Bool × Grid × Rng)
  | [], board, s => some (false, board, s)
  | num :: rest, board, s =>
    if is_valid board row col num then
      match recur (setCell board row col num) s with
      | none => none
      | some (true, board1, s1) => some (true, board1, s1)
      | some (false, board1, s1) =>
        try_nums recur row col rest (setCell board1 row col EMPTY) s1
    else try_nums recur row col rest board s

/-- `solve_board`, lines 88-104.  The first argument bounds the recursion
depth; `none` is returned when it is used up. -/
def solve_board : Nat → Grid → Rng → Option (Bool × Grid × Rng)
  | 0, _, _ => none
  | fuel + 1, board, s =>
    match find_empty board with
    | none => some (true, board, s)
    | some (row, col) =>
      let ns := shuffle_arr init_nums N s
      try_nums (solve_board fuel) row col ns.1 board ns.2

/-- `fill_board_backtrack`, lines 120-135. -/
def fill_board_backtrack : Nat → Grid → Rng → Option (Bool × Grid × Rng)
  | 0, _, _ => none
  | fuel + 1, board, s =>
    match find_empty board with
    | none => some (true, board, s)
    | some (row, col) =>
      let ns := shuffle_arr init_nums N s
      try_nums (fill_board_backtrack fuel) row col ns.1 board ns.2

/-- `copy_board(src, dst)`, lines 114-118: the board `dst` afterwards. -/
def copy_board (src dst : Grid) : Grid :=
  fun r c => if r < N ∧ c < N then src r c else dst r c

/-- The two loops of `generate_full_board` that empty the board. -/
def clear_board (board : Grid) : Grid :=
  fun r c => if r < N ∧ c < N then EMPTY else board r c

/-- `generate_full_board`, lines 137-143: the value returned by
`fill_board_backtrack` is dropped. -/
def generate_full_board (fuel : Nat) (board : Grid) (s : Rng) : Option (Grid × Rng) :=
  match fill_board_backtrack fuel (clear_board board) s with
  | none => none
  | some (_, board1, s1) => some (board1, s1)

/-! ## Puzzle carver (`remove_cells`) -/

/-- The loop of `remove_cells`, lines 155-172, over the rest of the shuffled
index array, with the current `removedCount`.  The scratch board `tmp` is a
copy of the puzzle; the board that `solve_board` leaves in it is dropped. -/
def remove_loop (fuel : Nat) (removed : Int) :
    List Int → Int → Grid → Rng → Option (Grid × Int × Rng)
  | [], removedCount, puzzle, s => some (puzzle, removedCount, s)
  | idx :: rest, removedCount, puzzle, s =>
    if removedCount < removed then
      let r := (idx / (N : Int)).toNat
      let c := (idx % (N : Int)).toNat
      let backup := puzzle r c
      let puzzle1 := setCell puzzle r c EMPTY
      let tmp := copy_board puzzle1 (fun _ _ => 0)
      match solve_board fuel tmp s with
      | none => none
      | some (true, _, s1) => remove_loop fuel removed rest (removedCount + 1) puzzle1 s1
      | some (false, _, s1) =>
        remove_loop fuel removed rest removedCount (setCell puzzle1 r c backup) s1
    else some (puzzle, removedCount, s)

/-- The index array `cells[i] = i` for `i < N*N`. -/
def init_cells : List Int := (List.range (N * N)).map (fun (i : Nat) => (i : Int))

/-- `remove_cells(board, puzzle, removed)`, lines 145-173: the puzzle, the
final `removedCount` and the rest of the random stream.  `board` is only
read. -/
def remove_cells (fuel : Nat) (board puzzle : Grid) (removed : Int) (s : Rng) :
    Option (Grid × Int × Rng) :=
  let puzzle0 := copy_board board puzzle
  let cs := shuffle_arr init_cells (N * N) s
  remove_loop fuel removed cs.1 0 puzzle0 cs.2

/-- State-passing form of `remove_cells` with the array `board` it leaves
behind in front; the function body contains no store to `board` (the two
arrays are distinct, as in the call in `main`). -/
def remove_cells_run (fuel : Nat) (board puzzle : Grid) (removed : Int) (s : Rng) :
    Grid × Option (Grid × Int × Rng) :=
  (board, remove_cells fuel board puzzle removed s)

/-! ## Session operations (the command branches of `main`) -/

/-- What the `put` command reports. -/
inductive MoveResult where
  | Placed
  | OutOfRange
  | FixedCell
  | Conflict
  deriving DecidableEq, Repr

/-- The `put r c v` branch of `main`, lines 323-337 (the same code is in
`make_move`, lines 201-215), after the three integers were read: the report
and the puzzle afterwards. -/
def apply_move (puzzle fixed : Grid) (r c v : Int) : MoveResult × Grid :=
  if r < 1 ∨ r > 9 ∨ c < 1 ∨ c > 9 ∨ v < 1 ∨ v > 9 then (MoveResult.OutOfRange, puzzle)
  else
    let r0 := (r - 1).toNat
    let c0 := (c - 1).toNat
    if fixed r0 c0 ≠ 0 then (MoveResult.FixedCell, puzzle)
    else if is_valid puzzle r0 c0 v then (MoveResult.Placed, setCell puzzle r0 c0 v)
    else (MoveResult.Conflict, puzzle)

/-- Body of the inner loop of the `check` branch, lines 345-350, applied to
the flag `ok` and the puzzle. -/
def check_cell (r c : Nat) (st : Bool × Grid) : Bool × Grid :=
  if st.2 r c ≠ EMPTY then
    let val := st.2 r c
    let p1 := setCell st.2 r c EMPTY
    let ok := if !(is_valid p1 r c val) then false else st.1
    (ok, setCell p1 r c val)
  else st

/-- Inner loop `for (c = 0; c < N && ok; ++c)` over the remaining columns. -/
def check_cols (r : Nat) : List Nat → Bool × Grid → Bool × Grid
  | [], st => st
  | c :: cs, st => if st.1 then check_cols r cs (check_cell r c st) else st

/-- Outer loop `for (r = 0; r < N && ok; ++r)` over the remaining rows. -/
def check_rows : List Nat → Bool × Grid → Bool × Grid
  | [], st => st
  | r :: rs, st => if st.1 then check_rows rs (check_cols r (List.range N) st) else st

/-- The `check` branch of `main`, lines 341-352 (the same code is in
`make_move`, lines 220-231): the final flag `ok` and the puzzle afterwards. -/
def check (puzzle : Grid) : Bool × Grid :=
  check_rows (List.range N) (true, puzzle)

/-- `give_hint`, lines 245-259: the reported triple (1-based row and column,
value), if any, and the puzzle afterwards. -/
def give_hint (puzzle solution fixed : Grid) : Option (Nat × Nat × Int) × Grid :=
  match (List.range N).findSome? (fun r =>
      (List.range N).findSome? (fun c =>
        if puzzle r c = EMPTY ∧ fixed r c = 0 then some (r, c) else none)) with
  | some (r, c) => (some (r + 1, c + 1, solution r c), setCell puzzle r c (solution r c))
  | none => (none, puzzle)

/-- `board_complete`, lines 261-266. -/
def board_complete (puzzle : Grid) : Bool :=
  (List.range N).all (fun r => (List.range N).all (fun c => puzzle r c != EMPTY))

/-- The completion test of `main`, lines 373-375: the puzzle is copied to
`temp` and `solve_board` runs on the copy. -/
def verify_complete_correct (fuel : Nat) (puzzle : Grid) (s : Rng) :
    Option (Bool × Grid × Rng) :=
  solve_board fuel (copy_board puzzle (fun _ _ => 0)) s

/-- State-passing form of `give_hint` with the arrays `solution` and `fixed`
it leaves behind at the end; the function body contains no store to them. -/
def give_hint_run (puzzle solution fixed : Grid) :
    (Option (Nat × Nat × Int) × Grid) × Grid × Grid :=
  (give_hint puzzle solution fixed, solution, fixed)

/-- The swap of `shuffle_arr` with its array accesses checked: `none` when
`i` or `j` is not an index of the array. -/
def swap_checked (arr : List Int) (i j : Nat) : Option (List Int) :=
  if i < arr.length ∧ j < arr.length then some (swap arr i j) else none

/-- The loop of `shuffle_arr` with checked array accesses. -/
def shuffle_from_checked : Nat → List Int → Rng → Option (List Int × Rng)
  | 0, arr, s => some (arr, s)
  | i + 1, arr, s =>
    let js := randint 0 (i + 1) s
    match swap_checked arr (i + 1) js.1 with
    | none => none
    | some arr1 => shuffle_from_checked i arr1 js.2

/-- `shuffle_arr(arr, n)` with checked array accesses. -/
def shuffle_arr_checked (arr : List Int) (n : Nat) (s : Rng) : Option (List Int × Rng) :=
  shuffle_from_checked (n - 1) arr s

/-- The three arrays of a game in `main`: the working puzzle, the solution
and the mask of fixed cells. -/
structure Session where
  puzzle : Grid
  solution : Grid
  fixed : Grid

/-- The difficulty selection of `main`, lines 282-286: `diff` is clamped to
`1..3` and mapped to the number of cells to remove. -/
def removed_for (diff : Int) : Int :=
  let d1 := if diff < 1 then 1 else diff
  let d2 := if d1 > 3 then 3 else d1
  if d2 = 1 then 36 else if d2 = 2 then 46 else 56

/-- The loops of `main`, lines 294-296: `fixed[r][c] = (puzzle[r][c] != EMPTY)`. -/
def mark_fixed (puzzle fixed : Grid) : Grid :=
  fun r c => if r < N ∧ c < N then (if puzzle r c ≠ EMPTY then 1 else 0) else fixed r c

/-- The set-up of a game in `main`, lines 289-296, from the chosen difficulty
and the previous contents of the four arrays. -/
def main_setup (fuel : Nat) (diff : Int) (full puzzle fixed solution : Grid) (s : Rng) :
    Option (Session × Rng) :=
  match generate_full_board fuel full s with
  | none => none
  | some (full1, s1) =>
    match remove_cells fuel full1 puzzle (removed_for diff) s1 with
    | none => none
    | some (puzzle1, _, s2) =>
      some (⟨puzzle1, copy_board full1 solution, mark_fixed puzzle1 fixed⟩, s2)

/-- The commands of the game loop that act on the puzzle. -/
inductive Command where
  | put (r c v : Int)
  | hint
  | check

/-- One command of the game loop of `main`, lines 318-352, applied to the
three arrays. -/
def step (st : Session) : Command → Session
  | Command.put r c v => ⟨(apply_move st.puzzle st.fixed r c v).2, st.solution, st.fixed⟩
  | Command.hint => ⟨(give_hint st.puzzle st.solution st.fixed).2, st.solution, st.fixed⟩
  | Command.check => ⟨(check st.puzzle).2, st.solution, st.fixed⟩

/-- A finite sequence of commands, one after the other. -/
def play : List Command → Session → Session
  | [], st => st
  | cmd :: rest, st => play rest (step st cmd)

/-- A finite sequence of `put` commands applied to a puzzle. -/
def apply_moves (fixed : Grid) : List (Int × Int × Int) → Grid → Grid
  | [], puzzle => puzzle
  | m :: rest, puzzle => apply_moves fixed rest (apply_move puzzle fixed m.1 m.2.1 m.2.2).2

/-- The candidates that the loop of `try_nums` reaches (those it passes to
`is_valid`), in the order of the loop: the loop ends at the first candidate
whose recursive call succeeds. -/
def try_nums_tried (recur : Grid → Rng → Option (Bool × Grid × Rng)) (row col : Nat) :
    List Int → Grid → Rng → List Int
  | [], _, _ => []
  | num :: rest, board, s =>
    if is_valid board row col num then
      match recur (setCell board row col num) s with
      | none => [num]
      | some (true, _, _) => [num]
      | some (false, board1, s1) =>
        num :: try_nums_tried recur row col rest (setCell board1 row col EMPTY) s1
    else num :: try_nums_tried recur row col rest board s

/-- The candidates that the outermost call of `solve_board` reaches for the
first empty cell of the board. -/
def solve_board_tried : Nat → Grid → Rng → List Int
  | 0, _, _ => []
  | fuel + 1, board, s =>
    match find_empty board with
    | none => []
    | some (row, col) =>
      let ns := shuffle_arr init_nums N s
      try_nums_tried (solve_board fuel) row col ns.1 board ns.2

/-- The cell indices for which the body of the loop of `remove_cells` runs,
in the order of the loop: the loop ends when `removedCount` reaches
`removed`. -/
def remove_loop_visited (fuel : Nat) (removed : Int) :
    List Int → Int → Grid → Rng → List Int
  | [], _, _, _ => []
  | idx :: rest, removedCount, puzzle, s =>
    if removedCount < removed then
      let r := (idx / (N : Int)).toNat
      let c := (idx % (N : Int)).toNat
      let backup := puzzle r c
      let puzzle1 := setCell puzzle r c EMPTY
      let tmp := copy_board puzzle1 (fun _ _ => 0)
      match solve_board fuel tmp s with
      | none => [idx]
      | some (true, _, s1) =>
        idx :: remove_loop_visited fuel removed rest (removedCount + 1) puzzle1 s1
      | some (false, _, s1) =>
        idx :: remove_loop_visited fuel removed rest removedCount
          (setCell puzzle1 r c backup) s1
    else []

/-- The cell indices that `remove_cells` visits, in order. -/
def remove_cells_visited (fuel : Nat) (board puzzle : Grid) (removed : Int) (s : Rng) :
    List Int :=
  let puzzle0 := copy_board board puzzle
  let cs := shuffle_arr init_cells (N * N) s
  remove_loop_visited fuel removed cs.1 0 puzzle0 cs.2

/-! ## Specification vocabulary -/

/-- The value `v` occurs somewhere in row `r`. -/
def InRow (g : Grid) (r : Nat) (v : Int) : Prop := ∃ j, j < 9 ∧ g r j = v

/-- The value `v` occurs somewhere in column `c`. -/
def InCol (g : Grid) (c : Nat) (v : Int) : Prop := ∃ i, i < 9 ∧ g i c = v

/-- The value `v` occurs somewhere in the 3x3 box whose top-left corner is
`(r - r % 3, c - c % 3)`. -/
def InBox (g : Grid) (r c : Nat) (v : Int) : Prop :=
  ∃ i, i < 3 ∧ ∃ j, j < 3 ∧ g (r - r % 3 + i) (c - c % 3 + j) = v

/-- The value `v` occurs in the row, the column or the box of cell `(r, c)`. -/
def Occurs (g : Grid) (r c : Nat) (v : Int) : Prop :=
  InRow g r v ∨ InCol g c v ∨ InBox g r c v

/-- The board of the end-to-end scenario of the specification. -/
def specGrid : Grid := ofRows
  [[5,3,4,6,7,8,9,1,2],[6,7,2,1,9,5,3,4,8],[1,9,8,3,4,2,5,6,7],
   [8,5,9,7,6,1,4,2,3],[4,2,6,8,5,3,7,9,1],[7,1,3,9,2,4,8,5,6],
   [9,6,1,5,3,7,2,8,4],[2,8,7,4,1,9,6,3,5],[3,4,5,2,8,6,1,7,9]]

/-- No cell of the board is empty. -/
def Full (g : Grid) : Prop := ∀ r, r < 9 → ∀ c, c < 9 → g r c ≠ 0

/-- Every cell holds `0` or one of `1..9`. -/
def InRange (g : Grid) : Prop := ∀ r, r < 9 → ∀ c, c < 9 → 0 ≤ g r c ∧ g r c ≤ 9

/-- Two cells lie in the same row, the same column or the same 3x3 box. -/
def SameUnit (r1 c1 r2 c2 : Nat) : Prop :=
  r1 = r2 ∨ c1 = c2 ∨ (r1 / 3 = r2 / 3 ∧ c1 / 3 = c2 / 3)

/-- The Grid invariant: no two distinct cells that hold the same non-zero
value share a row, a column or a 3x3 box. -/
def Consistent (g : Grid) : Prop :=
  ∀ r1, r1 < 9 → ∀ c1, c1 < 9 → ∀ r2, r2 < 9 → ∀ c2, c2 < 9 →
    (r1 ≠ r2 ∨ c1 ≠ c2) → g r1 c1 ≠ 0 → g r1 c1 = g r2 c2 → ¬ SameUnit r1 c1 r2 c2

/-- The values `1..9`. -/
def digits : List Int := [1, 2, 3, 4, 5, 6, 7, 8, 9]

/-- How often `v` occurs in row `r`. -/
def rowCount (g : Grid) (r : Nat) (v : Int) : Nat :=
  (List.range 9).countP (fun c => g r c == v)

/-- How often `v` occurs in column `c`. -/
def colCount (g : Grid) (c : Nat) (v : Int) : Nat :=
  (List.range 9).countP (fun r => g r c == v)

/-- How often `v` occurs in the box in box-row `br` and box-column `bc`. -/
def boxCount (g : Grid) (br bc : Nat) (v : Int) : Nat :=
  (List.range 9).countP (fun k => g (3 * br + k / 3) (3 * bc + k % 3) == v)

/-- Every row, every column and every one of the nine boxes contains each of
the values `1..9` exactly once. -/
def Solved (g : Grid) : Prop :=
  ∀ v, v ∈ digits →
    (∀ r, r < 9 → rowCount g r v = 1) ∧
    (∀ c, c < 9 → colCount g c v = 1) ∧
    (∀ br, br < 3 → ∀ bc, bc < 3 → boxCount g br bc v = 1)

/-- The board `h` agrees with `g` on every non-empty cell of `g`. -/
def Extends (h g : Grid) : Prop :=
  ∀ r, r < 9 → ∀ c, c < 9 → g r c ≠ 0 → h r c = g r c

/-- The number of empty cells of the board. -/
def emptyCount (g : Grid) : Nat :=
  (List.range 81).countP (fun k => g (k / 9) (k % 9) == 0)

instance (g : Grid) : Decidable (Full g) := by unfold Full; infer_instance
instance (g : Grid) : Decidable (InRange g) := by unfold InRange; infer_instance
instance (r1 c1 r2 c2 : Nat) : Decidable (SameUnit r1 c1 r2 c2) := by
  unfold SameUnit; infer_instance
set_option synthInstance.maxSize 2000 in
instance (g : Grid) : Decidable (Consistent g) := by unfold Consistent; infer_instance
instance (g : Grid) : Decidable (Solved g) := by unfold Solved; infer_instance
instance (h g : Grid) : Decidable (Extends h g) := by unfold Extends; infer_instance

/-- Cell `(r1, c1)` comes before cell `(r2, c2)` in row-major order. -/
def Before (r1 c1 r2 c2 : Nat) : Prop := r1 < r2 ∨ (r1 = r2 ∧ c1 < c2)

/-- The board of the specification with a `3` in cell `(0, 0)`: full, with
values in `1..9`, and with two `3`s in row 0, in column 0 and in the first box. -/
def conflictGrid : Grid := setCell specGrid 0 0 3

/-- The board of the specification with the cells `(0, 0)`, `(0, 1)` and
`(8, 0)` cleared. -/
def threeOpen : Grid := setCell (setCell (setCell specGrid 0 0 0) 0 1 0) 8 0 0

instance (r1 c1 r2 c2 : Nat) : Decidable (Before r1 c1 r2 c2) := by
  unfold Before; infer_instance

/-! ## Auxiliary predicates used in the proofs -/

/-- A failed call leaves the board as it found it. -/
def Restores (recur : Grid → Rng → Option (Bool × Grid × Rng)) : Prop :=
  ∀ b s b1 s1, recur b s = some (false, b1, s1) → b1 = b

/-- The call returns whenever the board has fewer than `n` empty cells. -/
def ReturnsBelow (recur : Grid → Rng → Option (Bool × Grid × Rng)) (n : Nat) : Prop :=
  ∀ b s, emptyCount b < n → ∃ res, recur b s = some res

/-- A successful call on a board that satisfies the Grid invariant and has
its cells in `0..9` leaves a full board with the same two properties that
still holds every value the board held before. -/
def SoundCall (recur : Grid → Rng → Option (Bool × Grid × Rng)) : Prop :=
  ∀ b s b1 s1, Consistent b → InRange b → recur b s = some (true, b1, s1) →
    Full b1 ∧ Consistent b1 ∧ InRange b1 ∧ Extends b1 b

/-- The call succeeds on every board with fewer than `n` empty cells that the
solved board `h` extends. -/
def CompleteBelow (recur : Grid → Rng → Option (Bool × Grid × Rng)) (n : Nat)
    (h : Grid) : Prop :=
  ∀ b s, emptyCount b < n → Extends h b → ∃ b1 s1, recur b s = some (true, b1, s1)

/-- Cell `(r, c)` passes the test of the `check` loop: it is empty, or its
value is accepted by `is_valid` once the cell is cleared. -/
def cellOk (g : Grid) (r c : Nat) : Bool :=
  if g r c ≠ 0 then is_valid (setCell g r c 0) r c (g r c) else true

/-! ## Facts about `is_valid` -/

theorem is_valid_eq_false_iff (g : Grid) (r c : Nat) (v : Int) :
    is_valid g r c v = false ↔ Occurs g r c v := by
  unfold is_valid Occurs InRow InCol InBox
  simp only [N]
  constructor
  · intro h
    split at h
    · rename_i h1
      rw [List.any_eq_true] at h1
      obtain ⟨i, hi, hv⟩ := h1
      rw [List.mem_range] at hi
      rw [Bool.or_eq_true, beq_iff_eq, beq_iff_eq] at hv
      rcases hv with hv | hv
      · exact Or.inl ⟨i, hi, hv⟩
      · exact Or.inr (Or.inl ⟨i, hi, hv⟩)
    · split at h
      · rename_i h2
        rw [List.any_eq_true] at h2
        obtain ⟨i, hi, hv⟩ := h2
        rw [List.any_eq_true] at hv
        obtain ⟨j, hj, hv⟩ := hv
        rw [List.mem_range] at hi hj
        rw [beq_iff_eq] at hv
        exact Or.inr (Or.inr ⟨i, hi, j, hj, hv⟩)
      · cases h
  · intro h
    split
    · rfl
    · rename_i h1
      split
      · rfl
      · rename_i h2
        exfalso
        rcases h with ⟨j, hj, hv⟩ | ⟨i, hi, hv⟩ | ⟨i, hi, j, hj, hv⟩
        · apply h1
          rw [List.any_eq_true]
          exact ⟨j, List.mem_range.mpr hj, by simp [hv]⟩
        · apply h1
          rw [List.any_eq_true]
          exact ⟨i, List.mem_range.mpr hi, by simp [hv]⟩
        · apply h2
          rw [List.any_eq_true]
          refine ⟨i, List.mem_range.mpr hi, ?_⟩
          rw [List.any_eq_true]
          exact ⟨j, List.mem_range.mpr hj, by simp [hv]⟩

theorem is_valid_eq_true_iff (g : Grid) (r c : Nat) (v : Int) :
    is_valid g r c v = true ↔ ¬ Occurs g r c v := by
  rw [← is_valid_eq_false_iff]
  cases is_valid g r c v <;> simp

/-! ## Stores -/

theorem setCell_same (g : Grid) (r c : Nat) (v : Int) : setCell g r c v r c = v := by
  simp [setCell]

theorem setCell_other (g : Grid) (r c : Nat) (v : Int) (i j : Nat) (h : i ≠ r ∨ j ≠ c) :
    setCell g r c v i j = g i j := by
  unfold setCell
  split
  · rename_i h1
    rcases h with h | h
    · exact absurd h1.1 h
    · exact absurd h1.2 h
  · rfl

theorem setCell_restore (g : Grid) (r c : Nat) (v w : Int) (h : g r c = w) :
    setCell (setCell g r c v) r c w = g := by
  funext i j
  unfold setCell
  split
  · rename_i h1
    rw [h1.1, h1.2, h]
  · rfl

/-! ## Shuffling yields a permutation -/

theorem count_two_le (arr : List Int) (a : Int) (i j : Nat) (hi : i < arr.length)
    (hj : j < arr.length) (hij : i ≠ j) :
    (if (arr[i] == a) = true then 1 else 0) + (if (arr[j] == a) = true then 1 else 0)
      ≤ List.count a arr := by
  have hj2 : j < (arr.set i (a + 1)).length := by simpa using hj
  have h1 := List.boole_getElem_le_count a arr i hi
  have h2 := List.boole_getElem_le_count a (arr.set i (a + 1)) j hj2
  have h3 : (arr.set i (a + 1))[j] = arr[j] := List.getElem_set_ne hij hj2
  rw [List.count_set _ _ _ _ hi, h3] at h2
  have h4 : ((a + 1 == a) = true) = False := by simp
  simp only [h4, if_false] at h2
  omega

theorem swap_perm (arr : List Int) (i j : Nat) (hi : i < arr.length) (hj : j < arr.length) :
    (swap arr i j).Perm arr := by
  rw [List.perm_iff_count]
  intro a
  unfold swap
  simp only []
  rw [List.getD_eq_getElem _ _ hi, List.getD_eq_getElem _ _ hj]
  have hj2 : j < (arr.set i arr[j]).length := by simpa using hj
  rw [List.count_set _ _ _ _ hj2, List.count_set _ _ _ _ hi]
  have h1 := List.boole_getElem_le_count a arr i hi
  have h2 := List.boole_getElem_le_count a arr j hj
  have h3 : (arr.set i arr[j])[j] = arr[j] := by
    rw [List.getElem_set]
    split <;> rfl
  rw [h3]
  by_cases hij : i = j
  · subst hij
    by_cases ha : arr[i] = a
    · simp only [ha, beq_self_eq_true, if_true] at h1 ⊢
      omega
    · have hb : ((arr[i] == a) = true) = False := by simpa using ha
      simp only [hb, if_false]
      omega
  · have h4 := count_two_le arr a i j hi hj hij
    by_cases ha : arr[i] = a <;> by_cases hb : arr[j] = a
    · simp only [ha, hb, beq_self_eq_true, if_true] at h4 ⊢
      omega
    · have hb2 : ((arr[j] == a) = true) = False := by simpa using hb
      simp only [ha, hb2, beq_self_eq_true, if_true, if_false] at h4 ⊢
      omega
    · have ha2 : ((arr[i] == a) = true) = False := by simpa using ha
      simp only [ha2, hb, beq_self_eq_true, if_true, if_false] at h4 ⊢
      omega
    · have ha2 : ((arr[i] == a) = true) = False := by simpa using ha
      have hb2 : ((arr[j] == a) = true) = False := by simpa using hb
      simp only [ha2, hb2, if_false] at h4 ⊢
      omega

theorem swap_length (arr : List Int) (i j : Nat) : (swap arr i j).length = arr.length := by
  simp [swap]

theorem shuffle_from_perm (i : Nat) (arr : List Int) (s : Rng) (hi : i < arr.length) :
    (shuffle_from i arr s).1.Perm arr := by
  induction i generalizing arr s with
  | zero => simp [shuffle_from]
  | succ i ih =>
    unfold shuffle_from
    simp only []
    have hj : (randint 0 (i + 1) s).1 < arr.length := by
      have : s 0 % (i + 1 - 0 + 1) < i + 1 - 0 + 1 := Nat.mod_lt _ (by omega)
      simp only [randint]
      omega
    have hs := swap_perm arr (i + 1) (randint 0 (i + 1) s).1 hi hj
    refine List.Perm.trans (ih _ _ ?_) hs
    rw [swap_length]
    omega

theorem shuffle_arr_perm (arr : List Int) (s : Rng) :
    (shuffle_arr arr arr.length s).1.Perm arr := by
  unfold shuffle_arr
  cases h : arr.length with
  | zero =>
    simp [shuffle_from]
  | succ n =>
    exact shuffle_from_perm _ _ _ (by omega)

theorem mem_shuffled_nums (s : Rng) (v : Int) :
    v ∈ (shuffle_arr init_nums N s).1 ↔ v ∈ digits := by
  have h := shuffle_arr_perm init_nums s
  have hl : init_nums.length = N := by decide
  rw [hl] at h
  rw [h.mem_iff]
  have : init_nums = digits := by decide
  rw [this]

theorem mem_digits_iff (v : Int) : v ∈ digits ↔ 1 ≤ v ∧ v ≤ 9 := by
  unfold digits
  simp only [List.mem_cons, List.mem_singleton, List.not_mem_nil, or_false]
  omega

/-! ## Empty cells -/

theorem find_empty_eq_none_iff (g : Grid) : find_empty g = none ↔ Full g := by
  unfold find_empty Full
  simp only [N, EMPTY, List.findSome?_eq_none_iff, List.mem_range]
  constructor
  · intro h r hr c hc h0
    have := h r hr c hc
    simp [h0] at this
  · intro h r hr c hc
    simp [h r hr c hc]

theorem find_empty_eq_some (g : Grid) (r c : Nat) (h : find_empty g = some (r, c)) :
    r < 9 ∧ c < 9 ∧ g r c = 0 := by
  unfold find_empty at h
  obtain ⟨r1, hr1, h1⟩ := List.exists_of_findSome?_eq_some h
  obtain ⟨c1, hc1, h2⟩ := List.exists_of_findSome?_eq_some h1
  simp only [N, List.mem_range] at hr1 hc1
  split at h2
  · rename_i h0
    simp only [Option.some.injEq, Prod.mk.injEq] at h2
    obtain ⟨rfl, rfl⟩ := h2
    exact ⟨hr1, hc1, h0⟩
  · cases h2

theorem countP_change (l : List Nat) (hnd : l.Nodup) (p q : Nat → Bool) (k0 : Nat)
    (hk : k0 ∈ l) (hp : p k0 = true) (hq : q k0 = false)
    (hsame : ∀ k, k ∈ l → k ≠ k0 → q k = p k) :
    List.countP q l + 1 = List.countP p l := by
  induction l with
  | nil => cases hk
  | cons a t ih =>
    rw [List.nodup_cons] at hnd
    by_cases ha : a = k0
    · subst ha
      have ht : List.countP q t = List.countP p t := by
        apply List.countP_congr
        intro k hkt
        have hne : k ≠ a := fun e => hnd.1 (e ▸ hkt)
        rw [hsame k (List.mem_cons_of_mem _ hkt) hne]
      rw [List.countP_cons_of_neg _ _ (by simp [hq]), List.countP_cons_of_pos _ _ hp, ht]
    · have hkt : k0 ∈ t := by
        rcases List.mem_cons.mp hk with e | e
        · exact absurd e.symm ha
        · exact e
      have := ih hnd.2 hkt (fun k hk1 hne => hsame k (List.mem_cons_of_mem _ hk1) hne)
      have hqa : q a = p a := hsame a (List.mem_cons_self _ _) ha
      rw [List.countP_cons, List.countP_cons, hqa]
      omega

theorem emptyCount_fill (g : Grid) (r c : Nat) (v : Int) (hr : r < 9) (hc : c < 9)
    (h0 : g r c = 0) (hv : v ≠ 0) :
    emptyCount (setCell g r c v) + 1 = emptyCount g := by
  unfold emptyCount
  apply countP_change _ (List.nodup_range 81) _ _ (9 * r + c)
  · rw [List.mem_range]; omega
  · have h1 : (9 * r + c) / 9 = r := by omega
    have h2 : (9 * r + c) % 9 = c := by omega
    simp [h1, h2, h0]
  · have h1 : (9 * r + c) / 9 = r := by omega
    have h2 : (9 * r + c) % 9 = c := by omega
    simp [h1, h2, setCell_same, hv]
  · intro k _ hne
    rw [setCell_other]
    omega

theorem emptyCount_clear (g : Grid) (r c : Nat) (hr : r < 9) (hc : c < 9)
    (h0 : g r c ≠ 0) :
    emptyCount (setCell g r c 0) = emptyCount g + 1 := by
  have h := emptyCount_fill (setCell g r c 0) r c (g r c) hr hc (setCell_same _ _ _ _) h0
  rw [setCell_restore g r c 0 (g r c) rfl] at h
  exact h.symm

theorem emptyCount_le (g : Grid) : emptyCount g ≤ 81 := by
  unfold emptyCount
  have := List.countP_le_length (fun k => g (k / 9) (k % 9) == 0) (l := List.range 81)
  simpa using this

/-! ## The search: undo on failure and termination -/

theorem try_nums_restores (recur : Grid → Rng → Option (Bool × Grid × Rng))
    (hrec : Restores recur) (row col : Nat) (nums : List Int) (board : Grid) (s : Rng)
    (h0 : board row col = 0) (b1 : Grid) (s1 : Rng)
    (h : try_nums recur row col nums board s = some (false, b1, s1)) : b1 = board := by
  induction nums generalizing s with
  | nil =>
    simp only [try_nums, Option.some.injEq, Prod.mk.injEq] at h
    exact h.2.1.symm
  | cons num rest ih =>
    unfold try_nums at h
    split at h
    · split at h
      · cases h
      · cases h
      · rename_i b2 s2 hcall
        have hb2 := hrec _ _ _ _ hcall
        rw [hb2, EMPTY, setCell_restore board row col num 0 h0] at h
        exact ih _ h
    · exact ih _ h

theorem solve_board_restores (fuel : Nat) : Restores (solve_board fuel) := by
  induction fuel with
  | zero =>
    intro b s b1 s1 h
    simp [solve_board] at h
  | succ fuel ih =>
    intro b s b1 s1 h
    unfold solve_board at h
    split at h
    · cases h
    · rename_i row col hfe
      have hcell := find_empty_eq_some b row col hfe
      exact try_nums_restores _ ih row col _ b _ hcell.2.2 b1 s1 h

theorem try_nums_returns (recur : Grid → Rng → Option (Bool × Grid × Rng)) (n : Nat)
    (hrec : Restores recur) (hret : ReturnsBelow recur n) (row col : Nat)
    (hr : row < 9) (hc : col < 9) (nums : List Int) (hnz : ∀ v, v ∈ nums → v ≠ 0)
    (board : Grid) (s : Rng) (h0 : board row col = 0) (hcnt : emptyCount board ≤ n) :
    ∃ res, try_nums recur row col nums board s = some res := by
  induction nums generalizing s with
  | nil => exact ⟨_, rfl⟩
  | cons num rest ih =>
    have hnz1 : ∀ v, v ∈ rest → v ≠ 0 := fun v hv => hnz v (List.mem_cons_of_mem _ hv)
    unfold try_nums
    split
    · have hlt : emptyCount (setCell board row col num) < n := by
        have := emptyCount_fill board row col num hr hc h0 (hnz num (List.mem_cons_self _ _))
        omega
      obtain ⟨res, hres⟩ := hret (setCell board row col num) s hlt
      obtain ⟨ok, b2, s2⟩ := res
      cases ok with
      | true =>
        rw [hres]
        exact ⟨_, rfl⟩
      | false =>
        rw [hres]
        have hb2 := hrec _ _ _ _ hres
        simp only []
        rw [hb2, EMPTY, setCell_restore board row col num 0 h0]
        exact ih hnz1 s2
    · exact ih hnz1 s

theorem shuffled_nums_ne_zero (s : Rng) (v : Int) (h : v ∈ (shuffle_arr init_nums N s).1) :
    v ≠ 0 := by
  rw [mem_shuffled_nums, mem_digits_iff] at h
  omega

theorem solve_board_returns (fuel : Nat) : ReturnsBelow (solve_board fuel) fuel := by
  induction fuel with
  | zero =>
    intro b s h
    omega
  | succ fuel ih =>
    intro b s hlt
    unfold solve_board
    split
    · exact ⟨_, rfl⟩
    · rename_i row col hfe
      have hcell := find_empty_eq_some b row col hfe
      exact try_nums_returns _ fuel (solve_board_restores fuel) ih row col hcell.1 hcell.2.1 _
        (shuffled_nums_ne_zero s) b _ hcell.2.2 (by omega)

theorem fill_eq_solve (fuel : Nat) : fill_board_backtrack fuel = solve_board fuel := by
  induction fuel with
  | zero =>
    funext b s
    simp [fill_board_backtrack, solve_board]
  | succ fuel ih =>
    funext b s
    simp only [fill_board_backtrack, solve_board, ih]

/-! ## The Grid invariant and single stores -/

theorem occurs_iff (g : Grid) (r c : Nat) (v : Int) (hr : r < 9) (hc : c < 9) :
    Occurs g r c v ↔
      ∃ r2 c2, r2 < 9 ∧ c2 < 9 ∧ SameUnit r c r2 c2 ∧ g r2 c2 = v := by
  unfold Occurs InRow InCol InBox SameUnit
  constructor
  · rintro (⟨j, hj, hv⟩ | ⟨i, hi, hv⟩ | ⟨i, hi, j, hj, hv⟩)
    · exact ⟨r, j, hr, hj, Or.inl rfl, hv⟩
    · exact ⟨i, c, hi, hc, Or.inr (Or.inl rfl), hv⟩
    · refine ⟨r - r % 3 + i, c - c % 3 + j, by omega, by omega, Or.inr (Or.inr ?_), hv⟩
      constructor <;> omega
  · rintro ⟨r2, c2, hr2, hc2, hu, hv⟩
    rcases hu with hu | hu | hu
    · subst hu
      exact Or.inl ⟨c2, hc2, hv⟩
    · subst hu
      exact Or.inr (Or.inl ⟨r2, hr2, hv⟩)
    · refine Or.inr (Or.inr ⟨r2 % 3, by omega, c2 % 3, by omega, ?_⟩)
      have h1 : r - r % 3 + r2 % 3 = r2 := by omega
      have h2 : c - c % 3 + c2 % 3 = c2 := by omega
      rw [h1, h2]
      exact hv

theorem sameUnit_symm (r1 c1 r2 c2 : Nat) (h : SameUnit r1 c1 r2 c2) :
    SameUnit r2 c2 r1 c1 := by
  unfold SameUnit at *
  omega

theorem consistent_setCell (g : Grid) (r c : Nat) (v : Int) (hr : r < 9) (hc : c < 9)
    (hg : Consistent g) (hv : ¬ Occurs g r c v) : Consistent (setCell g r c v) := by
  rw [occurs_iff g r c v hr hc] at hv
  intro r1 hr1 c1 hc1 r2 hr2 c2 hc2 hne hnz heq hu
  by_cases h1 : r1 = r ∧ c1 = c
  · obtain ⟨rfl, rfl⟩ := h1
    rw [setCell_same, setCell_other _ _ _ _ _ _ (by omega)] at heq
    exact hv ⟨r2, c2, hr2, hc2, hu, heq.symm⟩
  · have e1 : setCell g r c v r1 c1 = g r1 c1 := setCell_other _ _ _ _ _ _ (by omega)
    by_cases h2 : r2 = r ∧ c2 = c
    · obtain ⟨rfl, rfl⟩ := h2
      rw [setCell_same, e1] at heq
      exact hv ⟨r1, c1, hr1, hc1, sameUnit_symm _ _ _ _ hu, heq⟩
    · have e2 : setCell g r c v r2 c2 = g r2 c2 := setCell_other _ _ _ _ _ _ (by omega)
      rw [e1] at hnz
      rw [e1, e2] at heq
      exact hg r1 hr1 c1 hc1 r2 hr2 c2 hc2 hne hnz heq hu

theorem inRange_setCell (g : Grid) (r c : Nat) (v : Int) (hg : InRange g)
    (hv : v ∈ digits) : InRange (setCell g r c v) := by
  rw [mem_digits_iff] at hv
  intro i hi j hj
  by_cases h1 : i = r ∧ j = c
  · obtain ⟨rfl, rfl⟩ := h1
    rw [setCell_same]
    omega
  · rw [setCell_other _ _ _ _ _ _ (by omega)]
    exact hg i hi j hj

theorem extends_of_fill (g b : Grid) (r c : Nat) (v : Int) (h0 : g r c = 0)
    (h : Extends b (setCell g r c v)) : Extends b g := by
  intro i hi j hj hnz
  have hne : i ≠ r ∨ j ≠ c := by
    by_contra hcon
    have : i = r ∧ j = c := by omega
    rw [this.1, this.2] at hnz
    exact hnz h0
  have := h i hi j hj
  rw [setCell_other _ _ _ _ _ _ hne] at this
  exact this hnz

/-! ## The search: soundness -/

theorem try_nums_sound (recur : Grid → Rng → Option (Bool × Grid × Rng))
    (hrec : Restores recur) (hsound : SoundCall recur) (row col : Nat)
    (hr : row < 9) (hc : col < 9) (nums : List Int) (hnums : ∀ v, v ∈ nums → v ∈ digits)
    (board : Grid) (s : Rng) (h0 : board row col = 0)
    (hcons : Consistent board) (hrange : InRange board) (b1 : Grid) (s1 : Rng)
    (h : try_nums recur row col nums board s = some (true, b1, s1)) :
    Full b1 ∧ Consistent b1 ∧ InRange b1 ∧ Extends b1 board := by
  induction nums generalizing s with
  | nil => simp [try_nums] at h
  | cons num rest ih =>
    have hnums1 : ∀ v, v ∈ rest → v ∈ digits := fun v hv => hnums v (List.mem_cons_of_mem _ hv)
    unfold try_nums at h
    split at h
    · rename_i hvalid
      rw [is_valid_eq_true_iff] at hvalid
      split at h
      · cases h
      · rename_i b2 s2 hcall
        simp only [Option.some.injEq, Prod.mk.injEq, true_and] at h
        obtain ⟨rfl, rfl⟩ := h
        have := hsound _ _ _ _ (consistent_setCell board row col num hr hc hcons hvalid)
          (inRange_setCell board row col num hrange (hnums num (List.mem_cons_self _ _))) hcall
        exact ⟨this.1, this.2.1, this.2.2.1, extends_of_fill board _ row col num h0 this.2.2.2⟩
      · rename_i b2 s2 hcall
        have hb2 := hrec _ _ _ _ hcall
        rw [hb2, EMPTY, setCell_restore board row col num 0 h0] at h
        exact ih hnums1 _ h
    · exact ih hnums1 _ h

theorem solve_board_sound (fuel : Nat) : SoundCall (solve_board fuel) := by
  induction fuel with
  | zero =>
    intro b s b1 s1 _ _ h
    simp [solve_board] at h
  | succ fuel ih =>
    intro b s b1 s1 hcons hrange h
    unfold solve_board at h
    split at h
    · rename_i hfe
      simp only [Option.some.injEq, Prod.mk.injEq, true_and] at h
      obtain ⟨rfl, rfl⟩ := h
      exact ⟨(find_empty_eq_none_iff _).mp hfe, hcons, hrange, fun _ _ _ _ _ => rfl⟩
    · rename_i row col hfe
      have hcell := find_empty_eq_some b row col hfe
      exact try_nums_sound _ (solve_board_restores fuel) ih row col hcell.1 hcell.2.1 _
        (fun v hv => (mem_shuffled_nums s v).mp hv) b _ hcell.2.2 hcons hrange b1 s1 h

/-! ## Nine cells with nine values -/

theorem countP_eq_one (l : List Nat) (hnd : l.Nodup) (p : Nat → Bool) (k0 : Nat)
    (hk : k0 ∈ l) (hp : p k0 = true) (huniq : ∀ k, k ∈ l → p k = true → k = k0) :
    List.countP p l = 1 := by
  have h := countP_change l hnd p (fun _ => false) k0 hk hp rfl (by
    intro k hkl hne
    cases hpk : p k with
    | false => rfl
    | true => exact absurd (huniq k hkl hpk) hne)
  have h0 : List.countP (fun _ => false) l = 0 := by
    rw [List.countP_eq_zero]
    intro _ _
    simp
  omega

theorem countP_one_unique (l : List Nat) (hnd : l.Nodup) (p : Nat → Bool)
    (h1 : List.countP p l = 1) (a b : Nat) (ha : a ∈ l) (hb : b ∈ l)
    (hpa : p a = true) (hpb : p b = true) : a = b := by
  by_contra hne
  have h := countP_change l hnd p (fun k => p k && decide (k ≠ a)) a ha hpa (by simp) (by
    intro k _ hka
    simp [hka])
  have hpos : 0 < List.countP (fun k => p k && decide (k ≠ a)) l := by
    rw [List.countP_pos_iff]
    exact ⟨b, hb, by simp [hpb, Ne.symm hne]⟩
  omega

theorem unit_counts_of_inj (f : Nat → Int) (hrange : ∀ k, k < 9 → 1 ≤ f k ∧ f k ≤ 9)
    (hinj : ∀ k1, k1 < 9 → ∀ k2, k2 < 9 → f k1 = f k2 → k1 = k2) (v : Int)
    (hv : v ∈ digits) : (List.range 9).countP (fun k => f k == v) = 1 := by
  rw [mem_digits_iff] at hv
  let F : Fin 9 → Fin 9 := fun k => ⟨(f k.1 - 1).toNat, by
    have := hrange k.1 k.2
    omega⟩
  have hF : Function.Injective F := by
    intro a b hab
    have h1 : (f a.1 - 1).toNat = (f b.1 - 1).toNat := congrArg Fin.val hab
    have ha := hrange a.1 a.2
    have hb := hrange b.1 b.2
    apply Fin.ext
    apply hinj a.1 a.2 b.1 b.2
    omega
  have hS : Function.Surjective F := Finite.injective_iff_surjective.mp hF
  obtain ⟨k, hk⟩ := hS ⟨(v - 1).toNat, by omega⟩
  have hk1 : (f k.1 - 1).toNat = (v - 1).toNat := congrArg Fin.val hk
  have hkr := hrange k.1 k.2
  have hfk : f k.1 = v := by omega
  apply countP_eq_one _ (List.nodup_range 9) _ k.1 (List.mem_range.mpr k.2)
  · simp [hfk]
  · intro j hj hpj
    rw [beq_iff_eq] at hpj
    exact hinj j (List.mem_range.mp hj) k.1 k.2 (hpj.trans hfk.symm)

theorem unit_inj_of_counts (f : Nat → Int)
    (hcnt : ∀ v, v ∈ digits → (List.range 9).countP (fun k => f k == v) = 1) :
    (∀ k, k < 9 → f k ∈ digits) ∧
    (∀ k1, k1 < 9 → ∀ k2, k2 < 9 → f k1 ∈ digits → f k1 = f k2 → k1 = k2) := by
  have hinj : ∀ k1, k1 < 9 → ∀ k2, k2 < 9 → f k1 ∈ digits → f k1 = f k2 → k1 = k2 := by
    intro k1 h1 k2 h2 hd heq
    exact countP_one_unique _ (List.nodup_range 9) _ (hcnt _ hd) k1 k2
      (List.mem_range.mpr h1) (List.mem_range.mpr h2) (by simp) (by simp [heq])
  refine ⟨?_, hinj⟩
  have hex : ∀ w : Fin 9, ∃ k : Fin 9, f k.1 = (w.1 : Int) + 1 := by
    intro w
    have hd : ((w.1 : Int) + 1) ∈ digits := by
      rw [mem_digits_iff]
      have := w.2
      omega
    have hpos : 0 < (List.range 9).countP (fun k => f k == (w.1 : Int) + 1) := by
      rw [hcnt _ hd]
      exact Nat.one_pos
    rw [List.countP_pos_iff] at hpos
    obtain ⟨k, hk, hfk⟩ := hpos
    exact ⟨⟨k, List.mem_range.mp hk⟩, by simpa using hfk⟩
  choose pos hpos using hex
  have hpinj : Function.Injective pos := by
    intro a b hab
    have h1 := hpos a
    have h2 := hpos b
    rw [hab] at h1
    apply Fin.ext
    have : (a.1 : Int) + 1 = (b.1 : Int) + 1 := h1.symm.trans h2
    omega
  have hpsurj : Function.Surjective pos := Finite.injective_iff_surjective.mp hpinj
  intro k hk
  obtain ⟨w, hw⟩ := hpsurj ⟨k, hk⟩
  have h1 := hpos w
  rw [hw] at h1
  simp only at h1
  rw [h1, mem_digits_iff]
  have := w.2
  omega

theorem solved_of_consistent (g : Grid) (hfull : Full g) (hrange : InRange g)
    (hcons : Consistent g) : Solved g := by
  have hcell : ∀ r, r < 9 → ∀ c, c < 9 → 1 ≤ g r c ∧ g r c ≤ 9 := by
    intro r hr c hc
    have h1 := hfull r hr c hc
    have h2 := hrange r hr c hc
    omega
  intro v hv
  refine ⟨?_, ?_, ?_⟩
  · intro r hr
    refine unit_counts_of_inj (fun c => g r c) (fun k hk => hcell r hr k hk) ?_ v hv
    intro k1 h1 k2 h2 heq
    by_contra hne
    exact hcons r hr k1 h1 r hr k2 h2 (Or.inr hne) (hfull r hr k1 h1) heq (Or.inl rfl)
  · intro c hc
    refine unit_counts_of_inj (fun r => g r c) (fun k hk => hcell k hk c hc) ?_ v hv
    intro k1 h1 k2 h2 heq
    by_contra hne
    exact hcons k1 h1 c hc k2 h2 c hc (Or.inl hne) (hfull k1 h1 c hc) heq (Or.inr (Or.inl rfl))
  · intro br hbr bc hbc
    refine unit_counts_of_inj (fun k => g (3 * br + k / 3) (3 * bc + k % 3))
      (fun k hk => hcell _ (by omega) _ (by omega)) ?_ v hv
    intro k1 h1 k2 h2 heq
    by_contra hne
    refine hcons (3 * br + k1 / 3) (by omega) (3 * bc + k1 % 3) (by omega)
      (3 * br + k2 / 3) (by omega) (3 * bc + k2 % 3) (by omega) (by omega)
      (hfull _ (by omega) _ (by omega)) heq (Or.inr (Or.inr ?_))
    constructor <;> omega

theorem consistent_of_solved (g : Grid) (h : Solved g) :
    Full g ∧ InRange g ∧ Consistent g := by
  have hrow : ∀ r, r < 9 → _ := fun r hr =>
    unit_inj_of_counts (fun c => g r c) (fun v hv => (h v hv).1 r hr)
  have hcol : ∀ c, c < 9 → _ := fun c hc =>
    unit_inj_of_counts (fun r => g r c) (fun v hv => (h v hv).2.1 c hc)
  have hbox : ∀ br, br < 3 → ∀ bc, bc < 3 → _ := fun br hbr bc hbc =>
    unit_inj_of_counts (fun k => g (3 * br + k / 3) (3 * bc + k % 3))
      (fun v hv => (h v hv).2.2 br hbr bc hbc)
  have hdig : ∀ r, r < 9 → ∀ c, c < 9 → g r c ∈ digits := fun r hr c hc => (hrow r hr).1 c hc
  refine ⟨?_, ?_, ?_⟩
  · intro r hr c hc
    have := (mem_digits_iff _).mp (hdig r hr c hc)
    omega
  · intro r hr c hc
    have := (mem_digits_iff _).mp (hdig r hr c hc)
    omega
  · intro r1 hr1 c1 hc1 r2 hr2 c2 hc2 hne _ heq hu
    rcases hu with hu | hu | hu
    · subst hu
      have := (hrow r1 hr1).2 c1 hc1 c2 hc2 (hdig r1 hr1 c1 hc1) heq
      omega
    · subst hu
      have := (hcol c1 hc1).2 r1 hr1 r2 hr2 (hdig r1 hr1 c1 hc1) heq
      omega
    · have e1 : 3 * (r1 / 3) + (3 * (r1 % 3) + c1 % 3) / 3 = r1 := by omega
      have e2 : 3 * (c1 / 3) + (3 * (r1 % 3) + c1 % 3) % 3 = c1 := by omega
      have e3 : 3 * (r1 / 3) + (3 * (r2 % 3) + c2 % 3) / 3 = r2 := by omega
      have e4 : 3 * (c1 / 3) + (3 * (r2 % 3) + c2 % 3) % 3 = c2 := by omega
      have := (hbox (r1 / 3) (by omega) (c1 / 3) (by omega)).2
        (3 * (r1 % 3) + c1 % 3) (by omega) (3 * (r2 % 3) + c2 % 3) (by omega)
        (by simp only [e1, e2]; exact hdig r1 hr1 c1 hc1)
        (by simp only [e1, e2, e3, e4]; exact heq)
      omega

/-! ## The search: completeness -/

theorem valid_of_extends (h board : Grid) (row col : Nat) (hr : row < 9) (hc : col < 9)
    (hsol : Solved h) (hext : Extends h board) (h0 : board row col = 0) :
    is_valid board row col (h row col) = true := by
  obtain ⟨hfull, _, hcons⟩ := consistent_of_solved h hsol
  rw [is_valid_eq_true_iff, occurs_iff board row col _ hr hc]
  rintro ⟨r2, c2, hr2, hc2, hu, hv⟩
  have hnz : board r2 c2 ≠ 0 := by
    rw [hv]
    exact hfull row hr col hc
  have hne : row ≠ r2 ∨ col ≠ c2 := by
    by_contra hcon
    have : row = r2 ∧ col = c2 := by omega
    rw [← this.1, ← this.2] at hnz
    exact hnz h0
  have heq : h row col = h r2 c2 := by
    rw [hext r2 hr2 c2 hc2 hnz, hv]
  exact hcons row hr col hc r2 hr2 c2 hc2 hne (hfull row hr col hc) heq hu

theorem extends_setCell (h board : Grid) (row col : Nat) (hext : Extends h board) :
    Extends h (setCell board row col (h row col)) := by
  intro i hi j hj hnz
  by_cases h1 : i = row ∧ j = col
  · obtain ⟨rfl, rfl⟩ := h1
    rw [setCell_same]
  · have e := setCell_other board row col (h row col) i j (by omega)
    rw [e] at hnz ⊢
    exact hext i hi j hj hnz

theorem try_nums_complete (recur : Grid → Rng → Option (Bool × Grid × Rng)) (n : Nat)
    (h : Grid) (hsol : Solved h) (hrec : Restores recur) (hret : ReturnsBelow recur n)
    (hcomp : CompleteBelow recur n h) (row col : Nat) (hr : row < 9) (hc : col < 9)
    (nums : List Int) (hnz : ∀ v, v ∈ nums → v ≠ 0) (hmem : h row col ∈ nums)
    (board : Grid) (s : Rng) (h0 : board row col = 0) (hext : Extends h board)
    (hcnt : emptyCount board ≤ n) :
    ∃ b1 s1, try_nums recur row col nums board s = some (true, b1, s1) := by
  induction nums generalizing s with
  | nil => cases hmem
  | cons num rest ih =>
    have hnz1 : ∀ v, v ∈ rest → v ≠ 0 := fun v hv => hnz v (List.mem_cons_of_mem _ hv)
    have hlt : emptyCount (setCell board row col num) < n := by
      have := emptyCount_fill board row col num hr hc h0 (hnz num (List.mem_cons_self _ _))
      omega
    unfold try_nums
    split
    · obtain ⟨res, hres⟩ := hret (setCell board row col num) s hlt
      obtain ⟨ok, b2, s2⟩ := res
      cases ok with
      | true =>
        rw [hres]
        exact ⟨_, _, rfl⟩
      | false =>
        rw [hres]
        have hb2 := hrec _ _ _ _ hres
        simp only []
        rw [hb2, EMPTY, setCell_restore board row col num 0 h0]
        have hne : h row col ≠ num := by
          intro e
          obtain ⟨b3, s3, h3⟩ := hcomp (setCell board row col num) s hlt
            (e ▸ extends_setCell h board row col hext)
          rw [hres] at h3
          simp at h3
        have hmem1 : h row col ∈ rest := by
          rcases List.mem_cons.mp hmem with e | e
          · exact absurd e hne
          · exact e
        exact ih hnz1 hmem1 s2
    · rename_i hinv
      have hne : h row col ≠ num := by
        intro e
        apply hinv
        rw [← e]
        exact valid_of_extends h board row col hr hc hsol hext h0
      have hmem1 : h row col ∈ rest := by
        rcases List.mem_cons.mp hmem with e | e
        · exact absurd e hne
        · exact e
      exact ih hnz1 hmem1 s

theorem solve_board_complete_below (h : Grid) (hsol : Solved h) (fuel : Nat) :
    CompleteBelow (solve_board fuel) fuel h := by
  induction fuel with
  | zero =>
    intro b s hlt
    omega
  | succ fuel ih =>
    intro b s hlt hext
    unfold solve_board
    split
    · exact ⟨_, _, rfl⟩
    · rename_i row col hfe
      have hcell := find_empty_eq_some b row col hfe
      have hdig : h row col ∈ digits := by
        obtain ⟨hfull, hrange, _⟩ := consistent_of_solved h hsol
        rw [mem_digits_iff]
        have h1 := hfull row hcell.1 col hcell.2.1
        have h2 := hrange row hcell.1 col hcell.2.1
        omega
      exact try_nums_complete _ fuel h hsol (solve_board_restores fuel)
        (solve_board_returns fuel) ih row col hcell.1 hcell.2.1 _
        (shuffled_nums_ne_zero s) ((mem_shuffled_nums s _).mpr hdig) b _ hcell.2.2 hext
        (by omega)

/-! ## The board of the end-to-end scenario -/

theorem specGrid_solved : Solved specGrid := by decide

theorem specGrid_extends_cleared : Extends specGrid (setCell specGrid 0 0 0) := by decide

theorem specGrid_full : Full specGrid := by decide

theorem cleared_consistent : Consistent (setCell specGrid 0 0 0) := by decide

theorem emptyCount_clear_le (g : Grid) (r c : Nat) (hr : r < 9) (hc : c < 9) :
    emptyCount (setCell g r c 0) ≤ emptyCount g + 1 := by
  by_cases h0 : g r c = 0
  · have : setCell g r c 0 = g := by
      funext i j
      unfold setCell
      split
      · rename_i h1
        rw [h1.1, h1.2, h0]
      · rfl
    rw [this]
    omega
  · rw [emptyCount_clear g r c hr hc h0]

theorem emptyCount_copy (p tmp : Grid) : emptyCount (copy_board p tmp) = emptyCount p := by
  unfold emptyCount
  apply List.countP_congr
  intro k hk
  rw [List.mem_range] at hk
  have h1 : k / 9 < 9 := by omega
  have h2 : k % 9 < 9 := by omega
  simp [copy_board, N, h1, h2]

theorem extends_copy (h p tmp : Grid) (hext : Extends h p) : Extends h (copy_board p tmp) := by
  intro r hr c hc hnz
  have e : copy_board p tmp r c = p r c := by simp [copy_board, N, hr, hc]
  rw [e] at hnz ⊢
  exact hext r hr c hc hnz

theorem extends_clear (h p : Grid) (r c : Nat) (hext : Extends h p) :
    Extends h (setCell p r c 0) := by
  intro i hi j hj hnz
  by_cases h1 : i = r ∧ j = c
  · obtain ⟨rfl, rfl⟩ := h1
    rw [setCell_same] at hnz
    exact absurd rfl hnz
  · have e := setCell_other p r c 0 i j (by omega)
    rw [e] at hnz ⊢
    exact hext i hi j hj hnz

theorem mem_shuffled_cells (s : Rng) (idx : Int)
    (h : idx ∈ (shuffle_arr init_cells (N * N) s).1) : 0 ≤ idx ∧ idx < 81 := by
  have hp := shuffle_arr_perm init_cells s
  have hl : init_cells.length = N * N := by decide
  rw [hl] at hp
  rw [hp.mem_iff] at h
  unfold init_cells at h
  obtain ⟨k, hk, rfl⟩ := List.mem_map.mp h
  rw [List.mem_range, show N * N = 81 from rfl] at hk
  omega

/-- What the loop of `remove_cells` maintains: the puzzle holds only values of
the full board `g`, it has at most `removedCount` empty cells, and
`removedCount` does not exceed the requested number. -/
theorem remove_loop_spec (fuel : Nat) (hfuel : 82 ≤ fuel) (g : Grid) (removed : Int)
    (cells : List Int) (hcells : ∀ idx, idx ∈ cells → 0 ≤ idx ∧ idx < 81)
    (cnt : Int) (puzzle : Grid) (s : Rng) (hext : Extends g puzzle)
    (hcnt : (emptyCount puzzle : Int) ≤ cnt) (hle : cnt ≤ removed) :
    ∃ p cnt1 s1, remove_loop fuel removed cells cnt puzzle s = some (p, cnt1, s1) ∧
      Extends g p ∧ (emptyCount p : Int) ≤ cnt1 ∧ cnt1 ≤ removed := by
  induction cells generalizing cnt puzzle s with
  | nil => exact ⟨puzzle, cnt, s, rfl, hext, hcnt, hle⟩
  | cons idx rest ih =>
    have hrest : ∀ i, i ∈ rest → 0 ≤ i ∧ i < 81 := fun i hi =>
      hcells i (List.mem_cons_of_mem _ hi)
    have hidx := hcells idx (List.mem_cons_self _ _)
    have hr : (idx / (N : Int)).toNat < 9 := by
      simp only [N]
      omega
    have hc : (idx % (N : Int)).toNat < 9 := by
      simp only [N]
      omega
    unfold remove_loop
    split
    · rename_i hlt
      simp only []
      have hfl : emptyCount (copy_board
          (setCell puzzle (idx / (N : Int)).toNat (idx % (N : Int)).toNat EMPTY)
          (fun _ _ => 0)) < fuel := by
        have := emptyCount_le (copy_board
          (setCell puzzle (idx / (N : Int)).toNat (idx % (N : Int)).toNat EMPTY)
          (fun _ _ => 0))
        omega
      obtain ⟨res, hres⟩ := solve_board_returns fuel _ s hfl
      obtain ⟨ok, b2, s2⟩ := res
      rw [hres]
      cases ok with
      | true =>
        simp only []
        apply ih hrest
        · exact extends_clear g puzzle _ _ hext
        · have := emptyCount_clear_le puzzle _ _ hr hc
          rw [EMPTY]
          omega
        · omega
      | false =>
        simp only []
        rw [EMPTY, setCell_restore puzzle _ _ 0 _ rfl]
        exact ih hrest cnt puzzle s2 hext hcnt hle
    · exact ⟨puzzle, cnt, s, rfl, hext, hcnt, hle⟩

theorem emptyCount_full (g : Grid) (hfull : Full g) : emptyCount g = 0 := by
  unfold emptyCount
  rw [List.countP_eq_zero]
  intro k hk
  rw [List.mem_range] at hk
  have := hfull (k / 9) (by omega) (k % 9) (by omega)
  simpa using this

theorem remove_cells_inv (fuel : Nat) (hfuel : 82 ≤ fuel) (g puzzle : Grid)
    (hfull : Full g) (k : Int) (hk : 0 ≤ k) (s : Rng) :
    ∃ p cnt s1, remove_cells fuel g puzzle k s = some (p, cnt, s1) ∧
      Extends g p ∧ (emptyCount p : Int) ≤ cnt ∧ cnt ≤ k := by
  unfold remove_cells
  simp only []
  have hext : Extends g (copy_board g puzzle) := by
    intro r hr c hc _
    simp [copy_board, N, hr, hc]
  have hcnt : (emptyCount (copy_board g puzzle) : Int) ≤ 0 := by
    rw [emptyCount_copy, emptyCount_full g hfull]
    exact le_refl _
  exact remove_loop_spec fuel hfuel g k _ (mem_shuffled_cells s) 0 _ _ hext hcnt hk

/-! ## The `check` sweep -/

theorem check_cell_eq (r c : Nat) (st : Bool × Grid) :
    check_cell r c st = (st.1 && cellOk st.2 r c, st.2) := by
  obtain ⟨ok, g⟩ := st
  unfold check_cell cellOk
  simp only [EMPTY]
  split
  · rw [setCell_restore g r c 0 _ rfl]
    cases is_valid (setCell g r c 0) r c (g r c) <;> simp
  · simp

theorem check_cols_eq (r : Nat) (cs : List Nat) (st : Bool × Grid) :
    check_cols r cs st = (st.1 && cs.all (fun c => cellOk st.2 r c), st.2) := by
  induction cs generalizing st with
  | nil => simp [check_cols]
  | cons c cs ih =>
    obtain ⟨ok, g⟩ := st
    unfold check_cols
    cases ok with
    | true => simp [ih, check_cell_eq]
    | false => simp

theorem check_rows_eq (rs : List Nat) (st : Bool × Grid) :
    check_rows rs st =
      (st.1 && rs.all (fun r => (List.range N).all (fun c => cellOk st.2 r c)), st.2) := by
  induction rs generalizing st with
  | nil => simp [check_rows]
  | cons r rs ih =>
    obtain ⟨ok, g⟩ := st
    unfold check_rows
    cases ok with
    | true => simp [ih, check_cols_eq]
    | false => simp

theorem check_eq (g : Grid) :
    check g = ((List.range N).all (fun r => (List.range N).all (fun c => cellOk g r c)), g) := by
  unfold check
  rw [check_rows_eq]
  simp

theorem cellOk_all_iff (g : Grid) :
    (∀ r, r < 9 → ∀ c, c < 9 → cellOk g r c = true) ↔ Consistent g := by
  constructor
  · intro h r1 hr1 c1 hc1 r2 hr2 c2 hc2 hne hnz heq hu
    have h1 := h r1 hr1 c1 hc1
    unfold cellOk at h1
    rw [if_pos hnz, is_valid_eq_true_iff, occurs_iff _ _ _ _ hr1 hc1] at h1
    apply h1
    refine ⟨r2, c2, hr2, hc2, hu, ?_⟩
    rw [setCell_other _ _ _ _ _ _ (by omega)]
    exact heq.symm
  · intro h r hr c hc
    unfold cellOk
    split
    · rename_i hnz
      rw [is_valid_eq_true_iff, occurs_iff _ _ _ _ hr hc]
      rintro ⟨r2, c2, hr2, hc2, hu, hv⟩
      have hne : r ≠ r2 ∨ c ≠ c2 := by
        by_contra hcon
        have : r = r2 ∧ c = c2 := by omega
        rw [← this.1, ← this.2, setCell_same] at hv
        exact hnz hv.symm
      rw [setCell_other _ _ _ _ _ _ (by omega)] at hv
      exact h r hr c hc r2 hr2 c2 hc2 hne hnz hv.symm hu
    · rfl

theorem check_true_iff (g : Grid) : (check g).1 = true ↔ Consistent g := by
  rw [check_eq, ← cellOk_all_iff]
  simp only [N, List.all_eq_true, List.mem_range]

/-! ## The hint scan -/

theorem findSome_range_first {β : Type} (n : Nat) (f : Nat → Option β) (b : β)
    (h : (List.range n).findSome? f = some b) :
    ∃ k, k < n ∧ f k = some b ∧ ∀ j, j < k → f j = none := by
  induction n with
  | zero => simp at h
  | succ n ih =>
    rw [List.range_succ, List.findSome?_append] at h
    cases hn : (List.range n).findSome? f with
    | some b1 =>
      rw [hn] at h
      simp only [Option.or_some, Option.some.injEq] at h
      subst h
      obtain ⟨k, hk, hfk, hlt⟩ := ih hn
      exact ⟨k, by omega, hfk, hlt⟩
    | none =>
      rw [hn] at h
      simp only [Option.none_or, List.findSome?_cons, List.findSome?_nil] at h
      rw [List.findSome?_eq_none_iff] at hn
      refine ⟨n, by omega, ?_, fun j hj => hn j (List.mem_range.mpr hj)⟩
      cases hfn : f n with
      | none => rw [hfn] at h; cases h
      | some b1 => rw [hfn] at h; exact h

theorem hint_scan_some (p f : Grid) (r c : Nat)
    (h : (List.range N).findSome? (fun r =>
      (List.range N).findSome? (fun c =>
        if p r c = EMPTY ∧ f r c = 0 then some (r, c) else none)) = some (r, c)) :
    r < 9 ∧ c < 9 ∧ p r c = 0 ∧ f r c = 0 ∧
    ∀ r1 c1, r1 < 9 → c1 < 9 → p r1 c1 = 0 → f r1 c1 = 0 → ¬ Before r1 c1 r c := by
  obtain ⟨r0, hr0, hrow, hprev⟩ := findSome_range_first _ _ _ h
  obtain ⟨c0, hc0, hcell, hprevc⟩ := findSome_range_first _ _ _ hrow
  simp only [N, EMPTY] at hr0 hc0 hcell hprev hprevc
  split at hcell
  · rename_i hcond
    simp only [Option.some.injEq, Prod.mk.injEq] at hcell
    obtain ⟨rfl, rfl⟩ := hcell
    refine ⟨hr0, hc0, hcond.1, hcond.2, ?_⟩
    intro r1 c1 _ hc1 hp hf hb
    rcases hb with hb | ⟨rfl, hb⟩
    · have := hprev r1 hb
      rw [List.findSome?_eq_none_iff] at this
      have := this c1 (List.mem_range.mpr hc1)
      simp [hp, hf] at this
    · have := hprevc c1 hb
      simp [hp, hf] at this
  · cases hcell

theorem hint_scan_none (p f : Grid)
    (h : (List.range N).findSome? (fun r =>
      (List.range N).findSome? (fun c =>
        if p r c = EMPTY ∧ f r c = 0 then some (r, c) else none)) = none) :
    ∀ r c, r < 9 → c < 9 → ¬ (p r c = 0 ∧ f r c = 0) := by
  intro r c hr hc hcond
  rw [List.findSome?_eq_none_iff] at h
  have h1 := h r (List.mem_range.mpr hr)
  rw [List.findSome?_eq_none_iff] at h1
  have h2 := h1 c (List.mem_range.mpr hc)
  simp [EMPTY, hcond.1, hcond.2] at h2

/-- What `give_hint` does, in terms of the first cell that is empty and not
fixed. -/
theorem give_hint_cases (p sol f : Grid) :
    (∃ r c, r < 9 ∧ c < 9 ∧ p r c = 0 ∧ f r c = 0 ∧
      (∀ r1 c1, r1 < 9 → c1 < 9 → p r1 c1 = 0 → f r1 c1 = 0 → ¬ Before r1 c1 r c) ∧
      give_hint p sol f = (some (r + 1, c + 1, sol r c), setCell p r c (sol r c))) ∨
    ((∀ r c, r < 9 → c < 9 → ¬ (p r c = 0 ∧ f r c = 0)) ∧ give_hint p sol f = (none, p)) := by
  unfold give_hint
  split
  · rename_i r c hscan
    obtain ⟨hr, hc, hp, hf, hfirst⟩ := hint_scan_some p f r c hscan
    exact Or.inl ⟨r, c, hr, hc, hp, hf, hfirst, rfl⟩
  · rename_i hscan
    exact Or.inr ⟨hint_scan_none p f hscan, rfl⟩

/-! ## The completion test -/

theorem verify_full (fuel : Nat) (g : Grid) (s : Rng) (hfull : Full g) :
    verify_complete_correct (fuel + 1) g s = some (true, copy_board g (fun _ _ => 0), s) := by
  have hfe : find_empty (copy_board g (fun _ _ => 0)) = none := by
    rw [find_empty_eq_none_iff]
    intro r hr c hc
    simp only [copy_board, N, hr, hc, and_self, if_true]
    exact hfull r hr c hc
  simp only [verify_complete_correct, solve_board, hfe]

/-! ## Fuel beyond the recursion depth changes nothing -/

theorem try_nums_mono (recur1 recur2 : Grid → Rng → Option (Bool × Grid × Rng))
    (hmono : ∀ b s res, recur1 b s = some res → recur2 b s = some res)
    (row col : Nat) (nums : List Int) (board : Grid) (s : Rng) (res : Bool × Grid × Rng)
    (h : try_nums recur1 row col nums board s = some res) :
    try_nums recur2 row col nums board s = some res := by
  induction nums generalizing board s with
  | nil => simpa [try_nums] using h
  | cons num rest ih =>
    unfold try_nums at h ⊢
    split
    · rename_i hv
      rw [if_pos hv] at h
      cases hcall : recur1 (setCell board row col num) s with
      | none => rw [hcall] at h; cases h
      | some r1 =>
        rw [hcall] at h
        rw [hmono _ _ _ hcall]
        obtain ⟨ok, b1, s1⟩ := r1
        cases ok with
        | true => exact h
        | false => exact ih _ _ h
    · rename_i hv
      rw [if_neg hv] at h
      exact ih _ _ h

theorem solve_board_mono (fuel : Nat) (g : Grid) (s : Rng) (res : Bool × Grid × Rng)
    (h : solve_board fuel g s = some res) : solve_board (fuel + 1) g s = some res := by
  induction fuel generalizing g s res with
  | zero => simp [solve_board] at h
  | succ fuel ih =>
    unfold solve_board at h ⊢
    split
    · rename_i hfe
      rw [hfe] at h
      exact h
    · rename_i row col hfe
      rw [hfe] at h
      exact try_nums_mono _ _ (fun b s res hr => ih b s res hr) row col _ g _ res h

theorem solve_board_fuel_le (fuel1 fuel2 : Nat) (hle : fuel1 ≤ fuel2) (g : Grid) (s : Rng)
    (res : Bool × Grid × Rng) (h : solve_board fuel1 g s = some res) :
    solve_board fuel2 g s = some res := by
  induction fuel2 with
  | zero =>
    have : fuel1 = 0 := by omega
    rw [this] at h
    exact h
  | succ n ih =>
    by_cases hn : fuel1 = n + 1
    · rw [hn] at h
      exact h
    · exact solve_board_mono n g s res (ih (by omega))

/-! ## The shuffle stays within the array -/

theorem randint_le (i : Nat) (s : Rng) : (randint 0 i s).1 ≤ i := by
  have : s 0 % (i - 0 + 1) < i - 0 + 1 := Nat.mod_lt _ (by omega)
  simp only [randint]
  omega

theorem shuffle_from_checked_eq (i : Nat) (arr : List Int) (s : Rng)
    (hi : i < arr.length ∨ i = 0) :
    shuffle_from_checked i arr s = some (shuffle_from i arr s) := by
  induction i generalizing arr s with
  | zero => simp [shuffle_from_checked, shuffle_from]
  | succ i ih =>
    have hlt : i + 1 < arr.length := by omega
    have hj := randint_le (i + 1) s
    unfold shuffle_from_checked shuffle_from
    simp only []
    have hsw : swap_checked arr (i + 1) (randint 0 (i + 1) s).1
        = some (swap arr (i + 1) (randint 0 (i + 1) s).1) := by
      unfold swap_checked
      rw [if_pos ⟨hlt, by omega⟩]
    rw [hsw]
    simp only []
    apply ih
    rw [swap_length]
    omega

theorem shuffle_from_length (i : Nat) (arr : List Int) (s : Rng) :
    (shuffle_from i arr s).1.length = arr.length := by
  induction i generalizing arr s with
  | zero => simp [shuffle_from]
  | succ i ih =>
    unfold shuffle_from
    simp only []
    rw [ih, swap_length]

theorem digits_count : ∀ v, v ∈ digits → digits.count v = 1 := by decide

theorem init_cells_count : ∀ k : Nat, k < 81 → init_cells.count (k : Int) = 1 := by decide

theorem init_nums_eq : init_nums = digits := by decide

/-! ## Re-entering a held value -/

theorem shuffled_cells_nodup (s : Rng) : (shuffle_arr init_cells (N * N) s).1.Nodup := by
  have hp := shuffle_arr_perm init_cells s
  rw [show init_cells.length = N * N from by decide] at hp
  rw [hp.nodup_iff]
  decide

theorem shuffled_cells_length (s : Rng) : (shuffle_arr init_cells (N * N) s).1.length = 81 := by
  have hp := shuffle_arr_perm init_cells s
  rw [show init_cells.length = N * N from by decide] at hp
  rw [hp.length_eq]
  decide

theorem remove_loop_exact (fuel : Nat) (hfuel : 82 ≤ fuel) (g : Grid) (hsol : Solved g)
    (removed : Int) (cells : List Int) (hcells : ∀ idx, idx ∈ cells → 0 ≤ idx ∧ idx < 81)
    (hnd : cells.Nodup) (cnt : Int) (puzzle : Grid) (s : Rng) (hext : Extends g puzzle)
    (hopen : ∀ idx, idx ∈ cells →
      puzzle (idx / (N : Int)).toNat (idx % (N : Int)).toNat ≠ 0)
    (hcnt : (emptyCount puzzle : Int) = cnt) (hle : cnt ≤ removed) :
    ∃ p cnt1 s1, remove_loop fuel removed cells cnt puzzle s = some (p, cnt1, s1) ∧
      (emptyCount p : Int) = cnt1 ∧ cnt1 = min removed (cnt + cells.length) := by
  induction cells generalizing cnt puzzle s with
  | nil =>
    refine ⟨puzzle, cnt, s, rfl, hcnt, ?_⟩
    simp only [List.length_nil, Nat.cast_zero, add_zero]
    omega
  | cons idx rest ih =>
    have hrest : ∀ i, i ∈ rest → 0 ≤ i ∧ i < 81 := fun i hi =>
      hcells i (List.mem_cons_of_mem _ hi)
    have hidx := hcells idx (List.mem_cons_self _ _)
    rw [List.nodup_cons] at hnd
    have hr : (idx / (N : Int)).toNat < 9 := by
      simp only [N]
      omega
    have hc : (idx % (N : Int)).toNat < 9 := by
      simp only [N]
      omega
    unfold remove_loop
    split
    · rename_i hlt
      simp only []
      have hext1 : Extends g
          (setCell puzzle (idx / (N : Int)).toNat (idx % (N : Int)).toNat EMPTY) :=
        extends_clear g puzzle _ _ hext
      have hfl : emptyCount (copy_board
          (setCell puzzle (idx / (N : Int)).toNat (idx % (N : Int)).toNat EMPTY)
          (fun _ _ => 0)) < fuel := by
        have := emptyCount_le (copy_board
          (setCell puzzle (idx / (N : Int)).toNat (idx % (N : Int)).toNat EMPTY)
          (fun _ _ => 0))
        omega
      obtain ⟨b2, s2, hres⟩ := solve_board_complete_below g hsol fuel _ s hfl
        (extends_copy g _ (fun _ _ => 0) hext1)
      rw [hres]
      simp only []
      have hnz := hopen idx (List.mem_cons_self _ _)
      have hec := emptyCount_clear puzzle _ _ hr hc hnz
      obtain ⟨p, cnt1, s1, hrun, h1, h2⟩ := ih hrest hnd.2 (cnt + 1)
        (setCell puzzle (idx / (N : Int)).toNat (idx % (N : Int)).toNat EMPTY) s2 hext1
        (by
          intro i hi
          have hi81 := hrest i hi
          have hne : i ≠ idx := fun e => hnd.1 (e ▸ hi)
          rw [setCell_other]
          · exact hopen i (List.mem_cons_of_mem _ hi)
          · simp only [N]
            omega)
        (by rw [EMPTY, hec]; push_cast; omega)
        (by omega)
      refine ⟨p, cnt1, s1, hrun, h1, ?_⟩
      rw [h2, List.length_cons]
      push_cast
      congr 1
      omega
    · rename_i hge
      refine ⟨puzzle, cnt, s, rfl, hcnt, ?_⟩
      have : (0 : Int) ≤ ((idx :: rest).length : Int) := Int.natCast_nonneg _
      omega

theorem remove_cells_exact (fuel : Nat) (hfuel : 82 ≤ fuel) (g puzzle : Grid)
    (hfull : Full g) (hsol : Solved g) (k : Int) (hk : 0 ≤ k) (s : Rng) :
    ∃ p cnt s1, remove_cells fuel g puzzle k s = some (p, cnt, s1) ∧
      (emptyCount p : Int) = min k 81 ∧ cnt = min k 81 := by
  unfold remove_cells
  simp only []
  have hext : Extends g (copy_board g puzzle) := by
    intro r hr c hc _
    simp [copy_board, N, hr, hc]
  have hcnt : (emptyCount (copy_board g puzzle) : Int) = 0 := by
    rw [emptyCount_copy, emptyCount_full g hfull]
    rfl
  obtain ⟨p, cnt1, s1, hrun, h1, h2⟩ := remove_loop_exact fuel hfuel g hsol k _
    (mem_shuffled_cells s) (shuffled_cells_nodup s) 0 _ _ hext
    (by
      intro idx hidx
      have h81 := mem_shuffled_cells s idx hidx
      have hr : (idx / (N : Int)).toNat < 9 := by
        simp only [N]
        omega
      have hc : (idx % (N : Int)).toNat < 9 := by
        simp only [N]
        omega
      simp only [copy_board, N] at hr hc ⊢
      simp only [hr, hc, and_self, if_true]
      exact hfull _ hr _ hc)
    hcnt hk
  rw [shuffled_cells_length, zero_add] at h2
  refine ⟨p, cnt1, s1, hrun, ?_, h2⟩
  rw [h1, h2]
  rfl

/-! ## Accepted moves and the Grid invariant -/

theorem apply_move_cases (puzzle fixed : Grid) (row col v : Int) :
    (apply_move puzzle fixed row col v).2 = puzzle ∨
    ((apply_move puzzle fixed row col v).1 = MoveResult.Placed ∧
      (row - 1).toNat < 9 ∧ (col - 1).toNat < 9 ∧
      fixed (row - 1).toNat (col - 1).toNat = 0 ∧
      ¬ Occurs puzzle (row - 1).toNat (col - 1).toNat v ∧
      (apply_move puzzle fixed row col v).2
        = setCell puzzle (row - 1).toNat (col - 1).toNat v) := by
  unfold apply_move
  split
  · exact Or.inl rfl
  · rename_i hin
    simp only []
    split
    · exact Or.inl rfl
    · rename_i hfree
      split
      · rename_i hvalid
        rw [is_valid_eq_true_iff] at hvalid
        refine Or.inr ⟨rfl, by omega, by omega, by simpa using hfree, hvalid, rfl⟩
      · exact Or.inl rfl

theorem apply_move_placed (puzzle fixed : Grid) (row col v : Int)
    (h : (apply_move puzzle fixed row col v).1 = MoveResult.Placed) :
    (row - 1).toNat < 9 ∧ (col - 1).toNat < 9 ∧
    ¬ Occurs puzzle (row - 1).toNat (col - 1).toNat v ∧
    (apply_move puzzle fixed row col v).2
      = setCell puzzle (row - 1).toNat (col - 1).toNat v := by
  unfold apply_move at h ⊢
  split at h
  · cases h
  · rename_i hin
    rw [if_neg hin]
    simp only [] at h ⊢
    split at h
    · cases h
    · rename_i hfree
      rw [if_neg hfree]
      split at h
      · rename_i hvalid
        rw [if_pos hvalid]
        rw [is_valid_eq_true_iff] at hvalid
        exact ⟨by omega, by omega, hvalid, rfl⟩
      · cases h

theorem apply_move_consistent (puzzle fixed : Grid) (row col v : Int)
    (hcons : Consistent puzzle) : Consistent (apply_move puzzle fixed row col v).2 := by
  rcases apply_move_cases puzzle fixed row col v with h | ⟨_, hr, hc, _, hocc, h⟩
  · rw [h]
    exact hcons
  · rw [h]
    exact consistent_setCell puzzle _ _ v hr hc hcons hocc

theorem apply_moves_consistent (fixed : Grid) (moves : List (Int × Int × Int))
    (puzzle : Grid) (hcons : Consistent puzzle) :
    Consistent (apply_moves fixed moves puzzle) := by
  induction moves generalizing puzzle with
  | nil => exact hcons
  | cons m rest ih =>
    unfold apply_moves
    exact ih _ (apply_move_consistent puzzle fixed _ _ _ hcons)

/-! ## A search that fails after placing a value -/

/-- A board on which the search places the `5` in cell `(0, 0)`, fails on cell
`(0, 1)` and gives up: the board of the specification with `(0, 0)` and
`(0, 1)` cleared and a `3` stored in `(1, 1)`. -/
theorem dead_end_fails :
    (solve_board 3 (setCell (setCell (setCell specGrid 0 0 0) 0 1 0) 1 1 3)
      (fun _ => 0)).map (fun res => res.1) = some false := by decide

/-! ## The game session -/

theorem generate_full_board_result (fuel : Nat) (hfuel : 82 ≤ fuel) (board : Grid)
    (s : Rng) :
    ∃ b1 s1, generate_full_board fuel board s = some (b1, s1) ∧ Full b1 ∧ Solved b1 := by
  have hext : Extends specGrid (clear_board board) := by
    intro r hr c hc hnz
    exfalso
    apply hnz
    simp [clear_board, N, EMPTY, hr, hc]
  have hlt : emptyCount (clear_board board) < fuel := by
    have := emptyCount_le (clear_board board)
    omega
  obtain ⟨b1, s1, h1⟩ :=
    solve_board_complete_below specGrid specGrid_solved fuel (clear_board board) s hlt hext
  have hcons : Consistent (clear_board board) := by
    intro r1 hr1 c1 hc1 _ _ _ _ _ hnz
    exfalso
    apply hnz
    simp [clear_board, N, EMPTY, hr1, hc1]
  have hrange : InRange (clear_board board) := by
    intro r hr c hc
    simp [clear_board, N, EMPTY, hr, hc]
  obtain ⟨hfull, hc1, hr1, _⟩ := solve_board_sound fuel _ _ _ _ hcons hrange h1
  refine ⟨b1, s1, ?_, hfull, solved_of_consistent b1 hfull hr1 hc1⟩
  unfold generate_full_board
  rw [fill_eq_solve, h1]

theorem removed_for_nonneg (diff : Int) : 0 ≤ removed_for diff := by
  unfold removed_for
  simp only []
  split <;> [skip; split] <;> omega

theorem main_setup_result (fuel : Nat) (hfuel : 82 ≤ fuel) (diff : Int)
    (full puzzle fixed solution : Grid) (s : Rng) :
    ∃ st0 s1, main_setup fuel diff full puzzle fixed solution s = some (st0, s1) ∧
      ∀ r, r < 9 → ∀ c, c < 9 → st0.fixed r c ≠ 0 →
        st0.puzzle r c ≠ 0 ∧ st0.puzzle r c = st0.solution r c := by
  obtain ⟨full1, s1, hgen, hfull, _⟩ := generate_full_board_result fuel hfuel full s
  obtain ⟨p, cnt, s2, hrem, hext, _, _⟩ :=
    remove_cells_inv fuel hfuel full1 puzzle hfull (removed_for diff)
      (removed_for_nonneg diff) s1
  refine ⟨⟨p, copy_board full1 solution, mark_fixed p fixed⟩, s2, ?_, ?_⟩
  · unfold main_setup
    rw [hgen]
    simp only []
    rw [hrem]
  · intro r hr c hc hfix
    simp only [mark_fixed, N, EMPTY, hr, hc, and_self, if_true] at hfix
    have hnz : p r c ≠ 0 := by
      by_contra h0
      rw [if_neg (by simpa using h0)] at hfix
      exact hfix rfl
    refine ⟨hnz, ?_⟩
    simp only [copy_board, N, hr, hc, and_self, if_true]
    exact (hext r hr c hc hnz).symm

theorem step_frame (st : Session) (cmd : Command) :
    (step st cmd).fixed = st.fixed ∧ (step st cmd).solution = st.solution ∧
    ∀ r c, st.fixed r c ≠ 0 → (step st cmd).puzzle r c = st.puzzle r c := by
  cases cmd with
  | put row col v =>
    refine ⟨rfl, rfl, ?_⟩
    intro r c hfix
    simp only [step]
    rcases apply_move_cases st.puzzle st.fixed row col v with h | ⟨_, _, _, hfree, _, h⟩
    · rw [h]
    · rw [h]
      apply setCell_other
      by_contra hcon
      have : r = (row - 1).toNat ∧ c = (col - 1).toNat := by omega
      rw [this.1, this.2] at hfix
      exact hfix hfree
  | hint =>
    refine ⟨rfl, rfl, ?_⟩
    intro r c hfix
    simp only [step]
    rcases give_hint_cases st.puzzle st.solution st.fixed with
      ⟨r0, c0, _, _, _, hfree, _, h⟩ | ⟨_, h⟩
    · rw [h]
      apply setCell_other
      by_contra hcon
      have : r = r0 ∧ c = c0 := by omega
      rw [this.1, this.2] at hfix
      exact hfix hfree
    · rw [h]
  | check =>
    refine ⟨rfl, rfl, ?_⟩
    intro r c _
    simp only [step]
    rw [check_eq]

theorem play_frame (cmds : List Command) (st : Session) :
    (play cmds st).fixed = st.fixed ∧ (play cmds st).solution = st.solution ∧
    ∀ r c, st.fixed r c ≠ 0 → (play cmds st).puzzle r c = st.puzzle r c := by
  induction cmds generalizing st with
  | nil => exact ⟨rfl, rfl, fun _ _ _ => rfl⟩
  | cons cmd rest ih =>
    obtain ⟨h1, h2, h3⟩ := step_frame st cmd
    obtain ⟨k1, k2, k3⟩ := ih (step st cmd)
    unfold play
    refine ⟨k1.trans h1, k2.trans h2, ?_⟩
    intro r c hfix
    rw [k3 r c (by rw [h1]; exact hfix), h3 r c hfix]

theorem dead_end_recurses :
    (solve_board 1 (setCell (setCell (setCell specGrid 0 0 0) 0 1 0) 1 1 3)
      (fun _ => 0)).isNone = true := by decide

/-! ## The loops walk a prefix of the shuffled array -/

theorem try_nums_tried_prefix (recur : Grid → Rng → Option (Bool × Grid × Rng))
    (row col : Nat) (nums : List Int) (board : Grid) (s : Rng) :
    ∃ rest, try_nums_tried recur row col nums board s ++ rest = nums := by
  induction nums generalizing board s with
  | nil => exact ⟨[], rfl⟩
  | cons num tl ih =>
    unfold try_nums_tried
    split
    · split
      · exact ⟨tl, rfl⟩
      · exact ⟨tl, rfl⟩
      · rename_i b1 s1 _
        obtain ⟨rest, h⟩ := ih (setCell b1 row col EMPTY) s1
        exact ⟨rest, by rw [List.cons_append, h]⟩
    · obtain ⟨rest, h⟩ := ih board s
      exact ⟨rest, by rw [List.cons_append, h]⟩

theorem try_nums_tried_all (recur : Grid → Rng → Option (Bool × Grid × Rng))
    (row col : Nat) (nums : List Int) (board : Grid) (s : Rng) (b1 : Grid) (s1 : Rng)
    (h : try_nums recur row col nums board s = some (false, b1, s1)) :
    try_nums_tried recur row col nums board s = nums := by
  induction nums generalizing board s with
  | nil => rfl
  | cons num tl ih =>
    unfold try_nums at h
    unfold try_nums_tried
    split
    · rename_i hv
      rw [if_pos hv] at h
      split at h
      · cases h
      · cases h
      · rw [ih _ _ h]
    · rename_i hv
      rw [if_neg hv] at h
      rw [ih _ _ h]

theorem remove_loop_visited_prefix (fuel : Nat) (removed : Int) (cells : List Int)
    (cnt : Int) (puzzle : Grid) (s : Rng) :
    ∃ rest, remove_loop_visited fuel removed cells cnt puzzle s ++ rest = cells := by
  induction cells generalizing cnt puzzle s with
  | nil => exact ⟨[], rfl⟩
  | cons idx tl ih =>
    unfold remove_loop_visited
    split
    · simp only []
      split
      · exact ⟨tl, rfl⟩
      · rename_i s1 _
        obtain ⟨rest, h⟩ := ih (cnt + 1) (setCell puzzle (idx / (N : Int)).toNat
          (idx % (N : Int)).toNat EMPTY) s1
        exact ⟨rest, by rw [List.cons_append, h]⟩
      · rename_i s1 _
        obtain ⟨rest, h⟩ := ih cnt (setCell (setCell puzzle (idx / (N : Int)).toNat
          (idx % (N : Int)).toNat EMPTY) (idx / (N : Int)).toNat (idx % (N : Int)).toNat
          (puzzle (idx / (N : Int)).toNat (idx % (N : Int)).toNat)) s1
        exact ⟨rest, by rw [List.cons_append, h]⟩
    · exact ⟨idx :: tl, rfl⟩

theorem remove_loop_visited_length (fuel : Nat) (hfuel : 82 ≤ fuel) (g : Grid)
    (hsol : Solved g) (removed : Int) (cells : List Int) (cnt : Int) (puzzle : Grid)
    (s : Rng) (hext : Extends g puzzle) (hle : cnt ≤ removed) :
    cnt + ((remove_loop_visited fuel removed cells cnt puzzle s).length : Int)
      = min removed (cnt + cells.length) := by
  induction cells generalizing cnt puzzle s with
  | nil =>
    simp only [remove_loop_visited, List.length_nil, Nat.cast_zero, add_zero]
    omega
  | cons idx rest ih =>
    unfold remove_loop_visited
    split
    · rename_i hlt
      simp only []
      have hext1 : Extends g
          (setCell puzzle (idx / (N : Int)).toNat (idx % (N : Int)).toNat EMPTY) :=
        extends_clear g puzzle _ _ hext
      have hfl : emptyCount (copy_board
          (setCell puzzle (idx / (N : Int)).toNat (idx % (N : Int)).toNat EMPTY)
          (fun _ _ => 0)) < fuel := by
        have := emptyCount_le (copy_board
          (setCell puzzle (idx / (N : Int)).toNat (idx % (N : Int)).toNat EMPTY)
          (fun _ _ => 0))
        omega
      obtain ⟨b2, s2, hres⟩ := solve_board_complete_below g hsol fuel _ s hfl
        (extends_copy g _ (fun _ _ => 0) hext1)
      rw [hres]
      simp only []
      have h := ih (cnt + 1) _ s2 hext1 (by omega)
      rw [List.length_cons, List.length_cons]
      push_cast
      have e : cnt + 1 + (rest.length : Int) = cnt + ((rest.length : Int) + 1) := by omega
      rw [← e, ← h]
      omega
    · rename_i hge
      have : (0 : Int) ≤ ((idx :: rest).length : Int) := Int.natCast_nonneg _
      simp only [List.length_nil, Nat.cast_zero, add_zero]
      omega

theorem remove_cells_visited_length (fuel : Nat) (hfuel : 82 ≤ fuel) (g puzzle : Grid)
    (hsol : Solved g) (k : Int) (hk : 0 ≤ k) (s : Rng) :
    ((remove_cells_visited fuel g puzzle k s).length : Int) = min k 81 := by
  unfold remove_cells_visited
  simp only []
  have hext : Extends g (copy_board g puzzle) := by
    intro r hr c hc _
    simp [copy_board, N, hr, hc]
  have h := remove_loop_visited_length fuel hfuel g hsol k
    (shuffle_arr init_cells (N * N) s).1 0 (copy_board g puzzle)
    (shuffle_arr init_cells (N * N) s).2 hext hk
  rw [shuffled_cells_length, zero_add, zero_add] at h
  exact h

/-! ## Where the two loops stop -/

theorem try_nums_tried_run (recur : Grid → Rng → Option (Bool × Grid × Rng))
    (row col : Nat) (nums : List Int) (board : Grid) (s : Rng) :
    try_nums recur row col (try_nums_tried recur row col nums board s) board s
      = try_nums recur row col nums board s := by
  induction nums generalizing board s with
  | nil => rfl
  | cons num tl ih =>
    by_cases hv : is_valid board row col num = true
    · cases hcall : recur (setCell board row col num) s with
      | none => simp only [try_nums_tried, try_nums, hv, hcall, if_true]
      | some res =>
        obtain ⟨ok, b1, s1⟩ := res
        cases ok with
        | true => simp only [try_nums_tried, try_nums, hv, hcall, if_true]
        | false => simp only [try_nums_tried, try_nums, hv, hcall, if_true, ih]
    · simp only [try_nums_tried, try_nums, hv, if_false, ih]
      simp [try_nums, hv, ih]

theorem try_nums_tried_proper (recur : Grid → Rng → Option (Bool × Grid × Rng))
    (row col : Nat) (nums : List Int) (board : Grid) (s : Rng) (q : List Int) (x : Int)
    (y : List Int) (hq : q ++ x :: y = try_nums_tried recur row col nums board s) :
    ∃ b1 s1, try_nums recur row col q board s = some (false, b1, s1) := by
  induction nums generalizing board s q with
  | nil =>
    simp only [try_nums_tried] at hq
    cases q <;> cases hq
  | cons num tl ih =>
    cases q with
    | nil => exact ⟨board, s, rfl⟩
    | cons z q1 =>
      by_cases hv : is_valid board row col num = true
      · cases hcall : recur (setCell board row col num) s with
        | none =>
          simp only [try_nums_tried, hv, hcall, if_true] at hq
          cases q1 <;> simp at hq
        | some res =>
          obtain ⟨ok, b1, s1⟩ := res
          cases ok with
          | true =>
            simp only [try_nums_tried, hv, hcall, if_true] at hq
            cases q1 <;> simp at hq
          | false =>
            simp only [try_nums_tried, hv, hcall, if_true, List.cons_append,
              List.cons.injEq] at hq
            obtain ⟨rfl, hq1⟩ := hq
            obtain ⟨b2, s2, h2⟩ := ih _ _ q1 hq1
            exact ⟨b2, s2, by simp only [try_nums, hv, hcall, if_true, h2]⟩
      · simp only [try_nums_tried, hv, List.cons_append, List.cons.injEq] at hq
        simp only [Bool.false_eq_true, if_false, List.cons.injEq] at hq
        obtain ⟨rfl, hq1⟩ := hq
        obtain ⟨b2, s2, h2⟩ := ih _ _ q1 hq1
        exact ⟨b2, s2, by simp [try_nums, hv, h2]⟩

theorem try_nums_tried_last (recur : Grid → Rng → Option (Bool × Grid × Rng))
    (hrec : Restores recur) (row col : Nat) (nums : List Int) (board : Grid) (s : Rng)
    (h0 : board row col = 0) (b : Grid) (s2 : Rng)
    (h : try_nums recur row col nums board s = some (true, b, s2)) :
    ∃ pre c sc, try_nums_tried recur row col nums board s = pre ++ [c] ∧
      is_valid board row col c = true ∧
      recur (setCell board row col c) sc = some (true, b, s2) := by
  induction nums generalizing s with
  | nil => simp [try_nums] at h
  | cons num tl ih =>
    by_cases hv : is_valid board row col num = true
    · cases hcall : recur (setCell board row col num) s with
      | none => simp [try_nums, hv, hcall] at h
      | some res =>
        obtain ⟨ok, b1, s1⟩ := res
        cases ok with
        | true =>
          simp only [try_nums, hv, hcall, if_true, Option.some.injEq, Prod.mk.injEq,
            true_and] at h
          obtain ⟨rfl, rfl⟩ := h
          exact ⟨[], num, s, by simp only [try_nums_tried, hv, hcall, if_true, List.nil_append],
            hv, hcall⟩
        | false =>
          have hb1 := hrec _ _ _ _ hcall
          simp only [try_nums, hv, hcall, if_true] at h
          rw [hb1, EMPTY, setCell_restore board row col num 0 h0] at h
          obtain ⟨pre, c, sc, h1, h2, h3⟩ := ih s1 h
          refine ⟨num :: pre, c, sc, ?_, h2, h3⟩
          simp only [try_nums_tried, hv, hcall, if_true]
          rw [hb1, EMPTY, setCell_restore board row col num 0 h0, h1]
          rfl
    · have h' : try_nums recur row col tl board s = some (true, b, s2) := by
        simpa [try_nums, hv] using h
      obtain ⟨pre, c, sc, h1, h2, h3⟩ := ih s h'
      refine ⟨num :: pre, c, sc, ?_, h2, h3⟩
      simp [try_nums_tried, hv, h1]

theorem remove_loop_visited_run (fuel : Nat) (removed : Int) (cells : List Int)
    (cnt : Int) (puzzle : Grid) (s : Rng) :
    remove_loop fuel removed (remove_loop_visited fuel removed cells cnt puzzle s) cnt puzzle s
      = remove_loop fuel removed cells cnt puzzle s := by
  induction cells generalizing cnt puzzle s with
  | nil => rfl
  | cons idx tl ih =>
    by_cases hg : cnt < removed
    · cases hcall : solve_board fuel (copy_board (setCell puzzle (idx / (N : Int)).toNat
          (idx % (N : Int)).toNat EMPTY) (fun _ _ => 0)) s with
      | none => simp only [remove_loop_visited, remove_loop, hg, hcall, if_true]
      | some res =>
        obtain ⟨ok, b1, s1⟩ := res
        cases ok with
        | true => simp only [remove_loop_visited, remove_loop, hg, hcall, if_true, ih]
        | false => simp only [remove_loop_visited, remove_loop, hg, hcall, if_true, ih]
    · simp only [remove_loop_visited, remove_loop, hg, if_false]

theorem remove_loop_visited_proper (fuel : Nat) (removed : Int) (cells : List Int)
    (cnt : Int) (puzzle : Grid) (s : Rng) (q : List Int) (x : Int) (y : List Int)
    (hq : q ++ x :: y = remove_loop_visited fuel removed cells cnt puzzle s) :
    ∃ p c s1, remove_loop fuel removed q cnt puzzle s = some (p, c, s1) ∧ c < removed := by
  induction cells generalizing cnt puzzle s q with
  | nil =>
    simp only [remove_loop_visited] at hq
    cases q <;> cases hq
  | cons idx tl ih =>
    by_cases hg : cnt < removed
    · cases q with
      | nil => exact ⟨puzzle, cnt, s, rfl, hg⟩
      | cons z q1 =>
        cases hcall : solve_board fuel (copy_board (setCell puzzle (idx / (N : Int)).toNat
            (idx % (N : Int)).toNat EMPTY) (fun _ _ => 0)) s with
        | none =>
          simp only [remove_loop_visited, hg, hcall, if_true] at hq
          cases q1 <;> simp at hq
        | some res =>
          obtain ⟨ok, b1, s1⟩ := res
          cases ok with
          | true =>
            simp only [remove_loop_visited, hg, hcall, if_true, List.cons_append,
              List.cons.injEq] at hq
            obtain ⟨rfl, hq1⟩ := hq
            obtain ⟨p, c, s2, h2, hc⟩ := ih _ _ _ q1 hq1
            exact ⟨p, c, s2, by simp only [remove_loop, hg, hcall, if_true, h2], hc⟩
          | false =>
            simp only [remove_loop_visited, hg, hcall, if_true, List.cons_append,
              List.cons.injEq] at hq
            obtain ⟨rfl, hq1⟩ := hq
            obtain ⟨p, c, s2, h2, hc⟩ := ih _ _ _ q1 hq1
            exact ⟨p, c, s2, by simp only [remove_loop, hg, hcall, if_true, h2], hc⟩
    · simp only [remove_loop_visited, hg, if_false] at hq
      cases q <;> cases hq

theorem remove_loop_visited_stop (fuel : Nat) (removed : Int) (cells : List Int)
    (cnt : Int) (puzzle : Grid) (s : Rng) (p : Grid) (c : Int) (s1 : Rng)
    (h : remove_loop fuel removed cells cnt puzzle s = some (p, c, s1)) :
    remove_loop_visited fuel removed cells cnt puzzle s = cells ∨ ¬ (c < removed) := by
  induction cells generalizing cnt puzzle s with
  | nil => exact Or.inl rfl
  | cons idx tl ih =>
    by_cases hg : cnt < removed
    · cases hcall : solve_board fuel (copy_board (setCell puzzle (idx / (N : Int)).toNat
          (idx % (N : Int)).toNat EMPTY) (fun _ _ => 0)) s with
      | none => simp [remove_loop, hg, hcall] at h
      | some res =>
        obtain ⟨ok, b1, s2⟩ := res
        cases ok with
        | true =>
          simp only [remove_loop, hg, hcall, if_true] at h
          rcases ih _ _ _ h with h1 | h1
          · exact Or.inl (by simp only [remove_loop_visited, hg, hcall, if_true, h1])
          · exact Or.inr h1
        | false =>
          simp only [remove_loop, hg, hcall, if_true] at h
          rcases ih _ _ _ h with h1 | h1
          · exact Or.inl (by simp only [remove_loop_visited, hg, hcall, if_true, h1])
          · exact Or.inr h1
    · simp only [remove_loop, hg, if_false, Option.some.injEq, Prod.mk.injEq] at h
      obtain ⟨_, rfl, _⟩ := h
      exact Or.inr hg

theorem try_nums_false_each (recur : Grid → Rng → Option (Bool × Grid × Rng))
    (hrec : Restores recur) (row col : Nat) (q : List Int) (board : Grid) (s : Rng)
    (h0 : board row col = 0) (b1 : Grid) (s1 : Rng)
    (h : try_nums recur row col q board s = some (false, b1, s1)) :
    ∀ d, d ∈ q → is_valid board row col d = false ∨
      ∃ sd b2 s2, recur (setCell board row col d) sd = some (false, b2, s2) := by
  induction q generalizing s with
  | nil =>
    intro d hd
    cases hd
  | cons num tl ih =>
    by_cases hv : is_valid board row col num = true
    · cases hcall : recur (setCell board row col num) s with
      | none => simp [try_nums, hv, hcall] at h
      | some res =>
        obtain ⟨ok, b2, s2⟩ := res
        cases ok with
        | true => simp [try_nums, hv, hcall] at h
        | false =>
          have hb2 := hrec _ _ _ _ hcall
          simp only [try_nums, hv, hcall, if_true] at h
          rw [hb2, EMPTY, setCell_restore board row col num 0 h0] at h
          intro d hd
          rcases List.mem_cons.mp hd with e | e
          · subst e
            exact Or.inr ⟨s, b2, s2, hcall⟩
          · exact ih s2 h d e
    · have h' : try_nums recur row col tl board s = some (false, b1, s1) := by
        simpa [try_nums, hv] using h
      intro d hd
      rcases List.mem_cons.mp hd with e | e
      · subst e
        exact Or.inl (by simpa using hv)
      · exact ih s h' d e

theorem shuffled_nums_nodup (s : Rng) : (shuffle_arr init_nums N s).1.Nodup := by
  have hp := shuffle_arr_perm init_nums s
  rw [show init_nums.length = N from by decide] at hp
  rw [hp.nodup_iff]
  decide

theorem nodup_of_append_eq (l rest full : List Int) (h : l ++ rest = full)
    (hnd : full.Nodup) : l.Nodup := by
  rw [← h] at hnd
  exact (List.nodup_append.mp hnd).1

/-! ## Claims -/

/-- C1: on a board whose cell `(r, c)` is empty, with `r, c` in `0..8` and
`v` in `1..9`, `is_valid` answers false exactly when `v` occurs in row `r`,
in column `c` or in the 3x3 box with top-left corner
`(r - r % 3, c - c % 3)`, it answers true otherwise, and the board is left as
it was. -/
theorem is_valid_spec (g : Grid) (r c : Nat) (v : Int)
    (_hr : r < 9) (_hc : c < 9) (_hempty : g r c = EMPTY) (_hv1 : 1 ≤ v) (_hv9 : v ≤ 9) :
    ((is_valid_run g r c v).1 = false ↔ Occurs g r c v) ∧
    ((is_valid_run g r c v).1 = true ↔ ¬ Occurs g r c v) ∧
    (is_valid_run g r c v).2 = g :=
  ⟨is_valid_eq_false_iff g r c v, is_valid_eq_true_iff g r c v, rfl⟩

/-- Witness of C1: the board of the specification with cell `(0, 0)` cleared,
queried for the value `3` at `(0, 0)`. -/
theorem is_valid_spec_witness :
    ((is_valid_run (setCell specGrid 0 0 0) 0 0 3).1 = false ↔
        Occurs (setCell specGrid 0 0 0) 0 0 3) ∧
    ((is_valid_run (setCell specGrid 0 0 0) 0 0 3).1 = true ↔
        ¬ Occurs (setCell specGrid 0 0 0) 0 0 3) ∧
    (is_valid_run (setCell specGrid 0 0 0) 0 0 3).2 = setCell specGrid 0 0 0 :=
  is_valid_spec (setCell specGrid 0 0 0) 0 0 3 (by decide) (by decide) (by decide)
    (by decide) (by decide)

/-- C2: for every stream of random draws and every previous content of the
board, the backtracking fill started by `generate_full_board` on the emptied
board reports success (given fuel for its at most 82 nested calls), and the
board that `generate_full_board` leaves has no empty cell and has each of
`1..9` exactly once in every row, every column and every 3x3 box. -/
theorem generate_full_board_solved (fuel : Nat) (hfuel : 82 ≤ fuel) (board : Grid)
    (s : Rng) :
    ∃ b1 s1, fill_board_backtrack fuel (clear_board board) s = some (true, b1, s1) ∧
      generate_full_board fuel board s = some (b1, s1) ∧ Full b1 ∧ Solved b1 := by
  have hext : Extends specGrid (clear_board board) := by
    intro r hr c hc hnz
    exfalso
    apply hnz
    simp [clear_board, N, EMPTY, hr, hc]
  have hlt : emptyCount (clear_board board) < fuel := by
    have := emptyCount_le (clear_board board)
    omega
  obtain ⟨b1, s1, h1⟩ :=
    solve_board_complete_below specGrid specGrid_solved fuel (clear_board board) s hlt hext
  have hcons : Consistent (clear_board board) := by
    intro r1 hr1 c1 hc1 _ _ _ _ _ hnz
    exfalso
    apply hnz
    simp [clear_board, N, EMPTY, hr1, hc1]
  have hrange : InRange (clear_board board) := by
    intro r hr c hc
    simp [clear_board, N, EMPTY, hr, hc]
  obtain ⟨hfull, hc1, hr1, _⟩ := solve_board_sound fuel _ _ _ _ hcons hrange h1
  refine ⟨b1, s1, ?_, ?_, hfull, solved_of_consistent b1 hfull hr1 hc1⟩
  · rw [fill_eq_solve]
    exact h1
  · unfold generate_full_board
    rw [fill_eq_solve, h1]

/-- Witness of C2: fuel 82, a board that holds `7` everywhere beforehand, and
the stream `0, 1, 2, ...` of draws. -/
theorem generate_full_board_solved_witness :
    82 ≤ 82 ∧
    ∃ b1 s1, fill_board_backtrack 82 (clear_board (fun _ _ => 7)) (fun k => k)
        = some (true, b1, s1) ∧
      generate_full_board 82 (fun _ _ => 7) (fun k => k) = some (b1, s1) ∧
      Full b1 ∧ Solved b1 :=
  ⟨by decide, generate_full_board_solved 82 (by decide) (fun _ _ => 7) (fun k => k)⟩

/-- C3: solver completeness.  When some board `h` with each of `1..9` exactly
once in every row, column and box agrees with `g` on all non-empty cells of
`g`, then `solve_board` returns true on `g` for every stream of random draws,
given fuel beyond the number of empty cells of `g` (82 is always enough). -/
theorem solve_board_complete (fuel : Nat) (g : Grid) (hfuel : emptyCount g < fuel)
    (hex : ∃ h, Solved h ∧ Extends h g) (s : Rng) :
    ∃ b1 s1, solve_board fuel g s = some (true, b1, s1) := by
  obtain ⟨h, hsol, hext⟩ := hex
  exact solve_board_complete_below h hsol fuel g s hfuel hext

/-- Witness of C3: the board of the specification with cell `(0, 0)` cleared;
the full board itself is the completion, and the solver returns true for
every stream of draws. -/
theorem solve_board_complete_witness :
    emptyCount (setCell specGrid 0 0 0) < 82 ∧
    (∃ h, Solved h ∧ Extends h (setCell specGrid 0 0 0)) ∧
    ∀ s : Rng, ∃ b1 s1, solve_board 82 (setCell specGrid 0 0 0) s = some (true, b1, s1) :=
  ⟨by decide, ⟨specGrid, specGrid_solved, specGrid_extends_cleared⟩,
    fun s => solve_board_complete 82 (setCell specGrid 0 0 0) (by decide)
      ⟨specGrid, specGrid_solved, specGrid_extends_cleared⟩ s⟩

/-- C5: for a full board `g` with each of `1..9` once per row, column and box,
every `k >= 0` and every stream of draws, `remove_cells` (given fuel for the
at most 82 nested calls of each solvability test) returns a puzzle with at
most `k` empty cells in which every non-empty cell holds the value `g` has
there; the array `g` is left as it was. -/
theorem remove_cells_spec (fuel : Nat) (hfuel : 82 ≤ fuel) (g puzzle : Grid)
    (hfull : Full g) (_hsol : Solved g) (k : Int) (hk : 0 ≤ k) (s : Rng) :
    ∃ p cnt s1, (remove_cells_run fuel g puzzle k s).2 = some (p, cnt, s1) ∧
      (emptyCount p : Int) ≤ k ∧
      (∀ r, r < 9 → ∀ c, c < 9 → p r c ≠ 0 → p r c = g r c) ∧
      (remove_cells_run fuel g puzzle k s).1 = g := by
  obtain ⟨p, cnt, s1, h, hext, h1, h2⟩ := remove_cells_inv fuel hfuel g puzzle hfull k hk s
  unfold remove_cells_run
  simp only []
  refine ⟨p, cnt, s1, h, by omega, ?_, trivial⟩
  intro r hr c hc hnz
  exact (hext r hr c hc hnz).symm

/-- Witness of C5: the board of the specification, `k = 46` (the medium
difficulty of `main`), an all-zero puzzle array and the stream `0, 1, 2, ...`. -/
theorem remove_cells_spec_witness :
    82 ≤ 82 ∧ Full specGrid ∧ Solved specGrid ∧ (0 : Int) ≤ 46 ∧
    ∃ p cnt s1,
      (remove_cells_run 82 specGrid (fun _ _ => 0) 46 (fun k => k)).2 = some (p, cnt, s1) ∧
      (emptyCount p : Int) ≤ 46 ∧
      (∀ r, r < 9 → ∀ c, c < 9 → p r c ≠ 0 → p r c = specGrid r c) ∧
      (remove_cells_run 82 specGrid (fun _ _ => 0) 46 (fun k => k)).1 = specGrid :=
  ⟨by decide, specGrid_full, specGrid_solved, by decide,
    remove_cells_spec 82 (by decide) specGrid (fun _ _ => 0) specGrid_full specGrid_solved
      46 (by decide) (fun k => k)⟩

/-- C6: for a full board `g` with each of `1..9` once per row, column and box,
every `k >= 0` and every stream of draws, the puzzle that `remove_cells`
returns is solvable: `solve_board` returns true on every copy of it, for
every stream of draws of its own (given fuel for its at most 82 nested
calls). -/
theorem remove_cells_solvable (fuel : Nat) (hfuel : 82 ≤ fuel) (g puzzle : Grid)
    (hfull : Full g) (hsol : Solved g) (k : Int) (hk : 0 ≤ k) (s : Rng) :
    ∃ p cnt s1, remove_cells fuel g puzzle k s = some (p, cnt, s1) ∧
      ∀ fuel2, 82 ≤ fuel2 → ∀ (tmp : Grid) (s2 : Rng),
        ∃ b2 s3, solve_board fuel2 (copy_board p tmp) s2 = some (true, b2, s3) := by
  obtain ⟨p, cnt, s1, h, hext, _, _⟩ := remove_cells_inv fuel hfuel g puzzle hfull k hk s
  refine ⟨p, cnt, s1, h, ?_⟩
  intro fuel2 hfuel2 tmp s2
  have hlt : emptyCount (copy_board p tmp) < fuel2 := by
    have := emptyCount_le (copy_board p tmp)
    omega
  exact solve_board_complete_below g hsol fuel2 _ s2 hlt (extends_copy g p tmp hext)

/-- Witness of C6: the board of the specification, `k = 56` (the hard
difficulty of `main`) and the constant stream of draws. -/
theorem remove_cells_solvable_witness :
    82 ≤ 82 ∧ Full specGrid ∧ Solved specGrid ∧ (0 : Int) ≤ 56 ∧
    ∃ p cnt s1, remove_cells 82 specGrid (fun _ _ => 0) 56 (fun _ => 0) = some (p, cnt, s1) ∧
      ∀ fuel2, 82 ≤ fuel2 → ∀ (tmp : Grid) (s2 : Rng),
        ∃ b2 s3, solve_board fuel2 (copy_board p tmp) s2 = some (true, b2, s3) :=
  ⟨by decide, specGrid_full, specGrid_solved, by decide,
    remove_cells_solvable 82 (by decide) specGrid (fun _ _ => 0) specGrid_full
      specGrid_solved 56 (by decide) (fun _ => 0)⟩

/-- C7: a `put` with row, column and value in `1..9` whose (1-based) target
cell is marked fixed reports `FixedCell` and leaves the puzzle as it was,
whether or not the value would conflict. -/
theorem apply_move_fixed (puzzle fixed : Grid) (row col v : Int)
    (hr1 : 1 ≤ row) (hr9 : row ≤ 9) (hc1 : 1 ≤ col) (hc9 : col ≤ 9)
    (hv1 : 1 ≤ v) (hv9 : v ≤ 9)
    (hfixed : fixed (row - 1).toNat (col - 1).toNat ≠ 0) :
    apply_move puzzle fixed row col v = (MoveResult.FixedCell, puzzle) := by
  unfold apply_move
  rw [if_neg (by omega)]
  simp only []
  rw [if_pos hfixed]

/-- Witness of C7: `put 1 1 5` on the board of the specification with cell
`(0, 0)` marked fixed. -/
theorem apply_move_fixed_witness :
    apply_move specGrid (setCell (fun _ _ => 0) 0 0 1) 1 1 5
      = (MoveResult.FixedCell, specGrid) :=
  apply_move_fixed specGrid (setCell (fun _ _ => 0) 0 0 1) 1 1 5 (by decide) (by decide)
    (by decide) (by decide) (by decide) (by decide) (by decide)

/-- C8: a `put` with row, column and value in `1..9` on a cell that is not
fixed: when the value occurs in the row, the column or the 3x3 box of the
target, it reports `Conflict` and leaves the puzzle as it was; otherwise it
succeeds and the puzzle afterwards differs from the old one only in that cell
`(row - 1, col - 1)` holds the value. -/
theorem apply_move_free (puzzle fixed : Grid) (row col v : Int)
    (hr1 : 1 ≤ row) (hr9 : row ≤ 9) (hc1 : 1 ≤ col) (hc9 : col ≤ 9)
    (hv1 : 1 ≤ v) (hv9 : v ≤ 9)
    (hfree : fixed (row - 1).toNat (col - 1).toNat = 0) :
    (Occurs puzzle (row - 1).toNat (col - 1).toNat v →
      apply_move puzzle fixed row col v = (MoveResult.Conflict, puzzle)) ∧
    (¬ Occurs puzzle (row - 1).toNat (col - 1).toNat v →
      (apply_move puzzle fixed row col v).1 = MoveResult.Placed ∧
      ∀ i j, (apply_move puzzle fixed row col v).2 i j =
        if i = (row - 1).toNat ∧ j = (col - 1).toNat then v else puzzle i j) := by
  have hunf : apply_move puzzle fixed row col v =
      if is_valid puzzle (row - 1).toNat (col - 1).toNat v then
        (MoveResult.Placed, setCell puzzle (row - 1).toNat (col - 1).toNat v)
      else (MoveResult.Conflict, puzzle) := by
    unfold apply_move
    rw [if_neg (by omega)]
    simp only []
    rw [if_neg (by simpa using hfree)]
  constructor
  · intro hocc
    rw [hunf, (is_valid_eq_false_iff _ _ _ _).mpr hocc]
    rfl
  · intro hocc
    rw [hunf, (is_valid_eq_true_iff _ _ _ _).mpr hocc]
    exact ⟨rfl, fun i j => rfl⟩

/-- Witness of C8: `put 1 1 3` on the board of the specification with cell
`(0, 0)` cleared; row 0 holds a `3` in its second cell. -/
theorem apply_move_free_witness :
    apply_move (setCell specGrid 0 0 0) (fun _ _ => 0) 1 1 3
      = (MoveResult.Conflict, setCell specGrid 0 0 0) :=
  (apply_move_free (setCell specGrid 0 0 0) (fun _ _ => 0) 1 1 3 (by decide) (by decide)
    (by decide) (by decide) (by decide) (by decide) (by decide)).1
    (Or.inl ⟨1, by decide, by decide⟩)

/-- C9: `put` reports `OutOfRange` exactly when one of row, column and value
lies outside `1..9`; the range test comes first, so in that case the report
and the puzzle afterwards are the same for every puzzle and every mask (no
cell is looked at) and the puzzle is left as it was. -/
theorem apply_move_out_of_range (puzzle fixed : Grid) (row col v : Int) :
    ((apply_move puzzle fixed row col v).1 = MoveResult.OutOfRange ↔
      (row < 1 ∨ 9 < row ∨ col < 1 ∨ 9 < col ∨ v < 1 ∨ 9 < v)) ∧
    ((row < 1 ∨ 9 < row ∨ col < 1 ∨ 9 < col ∨ v < 1 ∨ 9 < v) →
      (apply_move puzzle fixed row col v).2 = puzzle ∧
      ∀ (p1 f1 : Grid), apply_move p1 f1 row col v = (MoveResult.OutOfRange, p1)) := by
  have hout : (row < 1 ∨ 9 < row ∨ col < 1 ∨ 9 < col ∨ v < 1 ∨ 9 < v) →
      ∀ (p1 f1 : Grid), apply_move p1 f1 row col v = (MoveResult.OutOfRange, p1) := by
    intro h p1 f1
    unfold apply_move
    rw [if_pos (by omega)]
  refine ⟨⟨?_, fun h => by rw [hout h]⟩, fun h => ⟨by rw [hout h], hout h⟩⟩
  intro h
  by_contra hin
  unfold apply_move at h
  rw [if_neg (by omega)] at h
  simp only [] at h
  split at h
  · cases h
  · split at h <;> cases h

/-- C10: the `check` sweep returns true exactly when no two distinct cells
holding the same non-zero value share a row, a column or a 3x3 box (fixed
cells play no special role: the sweep does not look at the mask), and false
exactly when such a pair of cells exists. -/
theorem check_iff_consistent (g : Grid) :
    ((check g).1 = true ↔ Consistent g) ∧
    ((check g).1 = false ↔
      ∃ r1 c1 r2 c2, r1 < 9 ∧ c1 < 9 ∧ r2 < 9 ∧ c2 < 9 ∧ (r1 ≠ r2 ∨ c1 ≠ c2) ∧
        g r1 c1 ≠ 0 ∧ g r1 c1 = g r2 c2 ∧ SameUnit r1 c1 r2 c2) := by
  refine ⟨check_true_iff g, ?_⟩
  have h := check_true_iff g
  constructor
  · intro hf
    have hn : ¬ Consistent g := by
      rw [← h, hf]
      simp
    unfold Consistent at hn
    push_neg at hn
    obtain ⟨r1, hr1, c1, hc1, r2, hr2, c2, hc2, hne, hnz, heq, hu⟩ := hn
    exact ⟨r1, c1, r2, c2, hr1, hc1, hr2, hc2, hne, hnz, heq, hu⟩
  · rintro ⟨r1, c1, r2, c2, hr1, hc1, hr2, hc2, hne, hnz, heq, hu⟩
    have hn : ¬ Consistent g := fun hc => hc r1 hr1 c1 hc1 r2 hr2 c2 hc2 hne hnz heq hu
    rw [← h] at hn
    simpa using hn

/-- C11: the `check` sweep leaves the puzzle cell for cell as it was (also
when it stops after the first conflict), and therefore a second `check` right
after the first gives the same answer. -/
theorem check_restores (g : Grid) :
    (check g).2 = g ∧ (check (check g).2).1 = (check g).1 := by
  have h : (check g).2 = g := by rw [check_eq]
  exact ⟨h, by rw [h]⟩

/-- C12: when some cell is empty and not fixed, `give_hint` takes the first
such cell `(r, c)` in row-major order, reports `(r + 1, c + 1, solution r c)`
and leaves a puzzle that differs from the old one only in that cell `(r, c)`
holds `solution r c`; when no cell is both empty and not fixed it reports
nothing and leaves the puzzle as it was.  The solution and the mask are left
as they were. -/
theorem give_hint_spec (p sol f : Grid) :
    ((∃ r c, r < 9 ∧ c < 9 ∧ p r c = 0 ∧ f r c = 0) →
      ∃ r c, r < 9 ∧ c < 9 ∧ p r c = 0 ∧ f r c = 0 ∧
        (∀ r1 c1, r1 < 9 → c1 < 9 → p r1 c1 = 0 → f r1 c1 = 0 → ¬ Before r1 c1 r c) ∧
        (give_hint_run p sol f).1.1 = some (r + 1, c + 1, sol r c) ∧
        ∀ i j, (give_hint_run p sol f).1.2 i j =
          if i = r ∧ j = c then sol r c else p i j) ∧
    ((∀ r c, r < 9 → c < 9 → ¬ (p r c = 0 ∧ f r c = 0)) →
      (give_hint_run p sol f).1 = (none, p)) ∧
    (give_hint_run p sol f).2 = (sol, f) := by
  unfold give_hint_run
  simp only []
  refine ⟨?_, ?_, trivial⟩
  · rintro ⟨r0, c0, hr0, hc0, hp0, hf0⟩
    rcases give_hint_cases p sol f with ⟨r, c, hr, hc, hp, hf, hfirst, heq⟩ | ⟨hnone, _⟩
    · refine ⟨r, c, hr, hc, hp, hf, hfirst, ?_, ?_⟩
      · rw [heq]
      · intro i j
        rw [heq]
        rfl
    · exact absurd ⟨hp0, hf0⟩ (hnone r0 c0 hr0 hc0)
  · intro hnone
    rcases give_hint_cases p sol f with ⟨r, c, hr, hc, hp, hf, _, _⟩ | ⟨_, heq⟩
    · exact absurd ⟨hp, hf⟩ (hnone r c hr hc)
    · exact heq

/-- C13, the code at the failing input: the board `conflictGrid` is full, has
its values in `1..9` and holds two `3`s in row 0, so the `check` sweep answers
false; the completion test of `main` nevertheless answers true on it, for
every stream of draws, since `solve_board` returns at once when no cell is
empty.  The board arises in a game: from the board of the specification with
the cells `(0, 0)`, `(0, 1)`, `(8, 0)` open, `put 1 1 3` is accepted and two
hints fill the other two cells. -/
theorem verify_accepts_conflict :
    Full conflictGrid ∧
    (∀ r, r < 9 → ∀ c, c < 9 → 1 ≤ conflictGrid r c ∧ conflictGrid r c ≤ 9) ∧
    ¬ Consistent conflictGrid ∧
    (check conflictGrid).1 = false ∧
    (∀ fuel s, verify_complete_correct (fuel + 1) conflictGrid s
      = some (true, copy_board conflictGrid (fun _ _ => 0), s)) ∧
    (∀ r, r < 9 → ∀ c, c < 9 →
      (play [Command.put 1 1 3, Command.hint, Command.hint]
        ⟨threeOpen, specGrid, mark_fixed threeOpen (fun _ _ => 0)⟩).puzzle r c
        = conflictGrid r c) := by
  have hfull : Full conflictGrid := by decide
  refine ⟨hfull, by decide, by decide, by decide, ?_, by decide⟩
  intro fuel s
  exact verify_full fuel conflictGrid s hfull

/-- C14: `solve_board` and `fill_board_backtrack` return on every board and
for every stream of draws as soon as the fuel exceeds the number of empty
cells of the board, which is at most 81, and more fuel does not change the
result: the nesting of calls is never deeper than the number of empty cells.
Each recursive call is made on the board with one candidate stored in the
first empty cell, which has one empty cell less. -/
theorem solve_board_terminates (g : Grid) (s : Rng) :
    (∃ res, solve_board (emptyCount g + 1) g s = some res ∧
      ∀ fuel, emptyCount g < fuel → solve_board fuel g s = some res) ∧
    (∃ res, fill_board_backtrack (emptyCount g + 1) g s = some res ∧
      ∀ fuel, emptyCount g < fuel → fill_board_backtrack fuel g s = some res) ∧
    emptyCount g ≤ 81 ∧
    (∀ row col, find_empty g = some (row, col) →
      ∀ num, num ∈ (shuffle_arr init_nums N s).1 →
        emptyCount (setCell g row col num) + 1 = emptyCount g) := by
  obtain ⟨res, hres⟩ := solve_board_returns (emptyCount g + 1) g s (by omega)
  have hall : ∀ fuel, emptyCount g < fuel → solve_board fuel g s = some res :=
    fun fuel hlt => solve_board_fuel_le _ fuel (by omega) g s res hres
  refine ⟨⟨res, hres, hall⟩, ⟨res, ?_, ?_⟩, emptyCount_le g, ?_⟩
  · rw [fill_eq_solve]
    exact hres
  · intro fuel hlt
    rw [fill_eq_solve]
    exact hall fuel hlt
  · intro row col hfe num hnum
    have hcell := find_empty_eq_some g row col hfe
    exact emptyCount_fill g row col num hcell.1 hcell.2.1 hcell.2.2
      (shuffled_nums_ne_zero s num hnum)

/-- Counterexample to C15 as stated: on the board of the specification with
cell `(0, 0)` cleared and the constant stream of draws, the shuffled
candidates are `2, 3, 4, 5, 6, 7, 8, 9, 1`; the loop of `solve_board` run
over the first four of them alone already returns true, so the call returns
true after reaching only `2, 3, 4, 5` (the other five are never tried).  And
`remove_cells` asked for one removal on the board of the specification has
`removedCount = 1` after the first cell of the shuffled index array, so it
visits one cell, not 81. -/
theorem loops_stop_early :
    find_empty (setCell specGrid 0 0 0) = some (0, 0) ∧
    (shuffle_arr init_nums N (fun _ => 0)).1 = [2, 3, 4, 5, 6, 7, 8, 9, 1] ∧
    (try_nums (solve_board 81) 0 0 [2, 3, 4, 5] (setCell specGrid 0 0 0)
      (shuffle_arr init_nums N (fun _ => 0)).2).map (fun res => res.1) = some true ∧
    (solve_board 82 (setCell specGrid 0 0 0) (fun _ => 0)).map (fun res => res.1)
      = some true ∧
    solve_board_tried 82 (setCell specGrid 0 0 0) (fun _ => 0) = [2, 3, 4, 5] ∧
    (shuffle_arr init_cells (N * N) (fun _ => 0)).1.head? = some 1 ∧
    (remove_loop 82 1 [1] 0 (copy_board specGrid (fun _ _ => 0))
      (shuffle_arr init_cells (N * N) (fun _ => 0)).2).map (fun res => res.2.1) = some 1 ∧
    (remove_cells 82 specGrid (fun _ _ => 0) 1 (fun _ => 0)).map (fun res => res.2.1)
      = some 1 ∧
    remove_cells_visited 82 specGrid (fun _ _ => 0) 1 (fun _ => 0) = [1] := by
  refine ⟨by decide, by decide, by decide, by decide, by decide, by decide, by decide,
    by decide, by decide⟩

/-- C15 (amended): for every array and every stream of draws, the index `j`
drawn at counter `i` lies in `0..i`; `shuffle_arr` called with the length of
the array moves the counter from `n - 1` down to `1`, swapping positions `i`
and `j`, and never leaves the array (the run with checked accesses succeeds
with the same result); the array it leaves is a permutation of the input, of
the same length.  The shuffled candidates of the solver hold each of `1..9`
exactly once.  The candidates the solver tries for the first empty cell are
an initial part of that array, each tried at most once: the loop of
`solve_board` run over them alone is the call, run over any shorter initial
part it returns false, every candidate before the last one tried was
rejected by `is_valid` or had its recursive call return false, and when the
call returns true the last one tried is a valid candidate whose recursive
call returned that result; so the solver stops at the first candidate whose
recursive call succeeds, and it tries all nine when the call returns false.
The shuffled index array of the carver holds each of `0..80` exactly once.
The cells the carver visits are an initial part of that array, each visited
at most once: the loop of `remove_cells` run over them alone is the call, run
over any shorter initial part it ends with `removedCount` below the requested
number, and it ends before the end of the array only with `removedCount` not
below that number; on a board with each of `1..9` once per row, column and
box it visits `min k 81` cells. -/
theorem shuffle_arr_spec (arr : List Int) (s : Rng) :
    (∀ i s1, (randint 0 i s1).1 ≤ i) ∧
    (∀ i a s1, shuffle_from (i + 1) a s1
      = shuffle_from i (swap a (i + 1) (randint 0 (i + 1) s1).1) (randint 0 (i + 1) s1).2) ∧
    shuffle_arr_checked arr arr.length s = some (shuffle_arr arr arr.length s) ∧
    (shuffle_arr arr arr.length s).1.Perm arr ∧
    (shuffle_arr arr arr.length s).1.length = arr.length ∧
    (∀ s1 v, v ∈ digits → (shuffle_arr init_nums N s1).1.count v = 1) ∧
    (∀ (s1 : Rng) (k : Nat), k < 81 →
      (shuffle_arr init_cells (N * N) s1).1.count (k : Int) = 1) ∧
    (∀ fuel g s1 row col, find_empty g = some (row, col) →
      (∃ rest, solve_board_tried (fuel + 1) g s1 ++ rest = (shuffle_arr init_nums N s1).1) ∧
      try_nums (solve_board fuel) row col (solve_board_tried (fuel + 1) g s1) g
          (shuffle_arr init_nums N s1).2 = solve_board (fuel + 1) g s1 ∧
      (∀ q x y, q ++ x :: y = solve_board_tried (fuel + 1) g s1 →
        ∃ b1 s2, try_nums (solve_board fuel) row col q g (shuffle_arr init_nums N s1).2
          = some (false, b1, s2)) ∧
      (∀ b s2, solve_board (fuel + 1) g s1 = some (true, b, s2) →
        ∃ pre c sc, solve_board_tried (fuel + 1) g s1 = pre ++ [c] ∧
          is_valid g row col c = true ∧
          solve_board fuel (setCell g row col c) sc = some (true, b, s2)) ∧
      (∀ b s2, solve_board (fuel + 1) g s1 = some (false, b, s2) →
        solve_board_tried (fuel + 1) g s1 = (shuffle_arr init_nums N s1).1) ∧
      (solve_board_tried (fuel + 1) g s1).Nodup ∧
      (∀ pre c, solve_board_tried (fuel + 1) g s1 = pre ++ [c] →
        ∀ d, d ∈ pre → is_valid g row col d = false ∨
          ∃ sd b2 s2, solve_board fuel (setCell g row col d) sd = some (false, b2, s2))) ∧
    (∀ fuel g puzzle k s1,
      (∃ rest, remove_cells_visited fuel g puzzle k s1 ++ rest
        = (shuffle_arr init_cells (N * N) s1).1) ∧
      remove_loop fuel k (remove_cells_visited fuel g puzzle k s1) 0 (copy_board g puzzle)
          (shuffle_arr init_cells (N * N) s1).2 = remove_cells fuel g puzzle k s1 ∧
      (∀ q x y, q ++ x :: y = remove_cells_visited fuel g puzzle k s1 →
        ∃ p c s2, remove_loop fuel k q 0 (copy_board g puzzle)
          (shuffle_arr init_cells (N * N) s1).2 = some (p, c, s2) ∧ c < k) ∧
      (∀ p c s2, remove_cells fuel g puzzle k s1 = some (p, c, s2) →
        remove_cells_visited fuel g puzzle k s1 = (shuffle_arr init_cells (N * N) s1).1 ∨
        ¬ (c < k)) ∧
      (remove_cells_visited fuel g puzzle k s1).Nodup ∧
      (82 ≤ fuel → Solved g → 0 ≤ k →
        ((remove_cells_visited fuel g puzzle k s1).length : Int) = min k 81)) := by
  refine ⟨randint_le, fun _ _ _ => rfl, ?_, shuffle_arr_perm arr s, ?_, ?_, ?_, ?_, ?_⟩
  · unfold shuffle_arr_checked shuffle_arr
    apply shuffle_from_checked_eq
    omega
  · unfold shuffle_arr
    exact shuffle_from_length _ _ _
  · intro s1 v hv
    have hp := shuffle_arr_perm init_nums s1
    rw [show init_nums.length = N from by decide] at hp
    rw [hp.count_eq, init_nums_eq]
    exact digits_count v hv
  · intro s1 k hk
    have hp := shuffle_arr_perm init_cells s1
    rw [show init_cells.length = N * N from by decide] at hp
    rw [hp.count_eq]
    exact init_cells_count k hk
  · intro fuel g s1 row col hfe
    have hcell := find_empty_eq_some g row col hfe
    have htried : solve_board_tried (fuel + 1) g s1
        = try_nums_tried (solve_board fuel) row col (shuffle_arr init_nums N s1).1 g
            (shuffle_arr init_nums N s1).2 := by
      simp only [solve_board_tried, hfe]
    have hsolve : solve_board (fuel + 1) g s1
        = try_nums (solve_board fuel) row col (shuffle_arr init_nums N s1).1 g
            (shuffle_arr init_nums N s1).2 := by
      simp only [solve_board, hfe]
    rw [htried, hsolve]
    have hpre := try_nums_tried_prefix (solve_board fuel) row col
      (shuffle_arr init_nums N s1).1 g (shuffle_arr init_nums N s1).2
    refine ⟨?_, ?_, ?_, ?_, ?_, ?_, ?_⟩
    · exact try_nums_tried_prefix (solve_board fuel) row col
        (shuffle_arr init_nums N s1).1 g (shuffle_arr init_nums N s1).2
    · exact try_nums_tried_run (solve_board fuel) row col
        (shuffle_arr init_nums N s1).1 g (shuffle_arr init_nums N s1).2
    · intro q x y hq
      exact try_nums_tried_proper (solve_board fuel) row col
        (shuffle_arr init_nums N s1).1 g (shuffle_arr init_nums N s1).2 q x y hq
    · intro b s2 h
      exact try_nums_tried_last (solve_board fuel) (solve_board_restores fuel) row col
        (shuffle_arr init_nums N s1).1 g (shuffle_arr init_nums N s1).2 hcell.2.2 b s2 h
    · intro b s2 h
      exact try_nums_tried_all (solve_board fuel) row col
        (shuffle_arr init_nums N s1).1 g (shuffle_arr init_nums N s1).2 b s2 h
    · obtain ⟨rest, hrest⟩ := hpre
      exact nodup_of_append_eq _ rest _ hrest (shuffled_nums_nodup s1)
    · intro pre c hpc d hd
      obtain ⟨b1, s2, hq⟩ := try_nums_tried_proper (solve_board fuel) row col
        (shuffle_arr init_nums N s1).1 g (shuffle_arr init_nums N s1).2 pre c []
        hpc.symm
      exact try_nums_false_each (solve_board fuel) (solve_board_restores fuel) row col pre g
        (shuffle_arr init_nums N s1).2 hcell.2.2 b1 s2 hq d hd
  · intro fuel g puzzle k s1
    have hvis : remove_cells_visited fuel g puzzle k s1
        = remove_loop_visited fuel k (shuffle_arr init_cells (N * N) s1).1 0
            (copy_board g puzzle) (shuffle_arr init_cells (N * N) s1).2 := by
      simp only [remove_cells_visited]
    have hrem : remove_cells fuel g puzzle k s1
        = remove_loop fuel k (shuffle_arr init_cells (N * N) s1).1 0
            (copy_board g puzzle) (shuffle_arr init_cells (N * N) s1).2 := by
      simp only [remove_cells]
    have hpre := remove_loop_visited_prefix fuel k (shuffle_arr init_cells (N * N) s1).1 0
      (copy_board g puzzle) (shuffle_arr init_cells (N * N) s1).2
    refine ⟨?_, ?_, ?_, ?_, ?_, ?_⟩
    · rw [hvis]
      exact remove_loop_visited_prefix fuel k (shuffle_arr init_cells (N * N) s1).1 0
        (copy_board g puzzle) (shuffle_arr init_cells (N * N) s1).2
    · rw [hvis, hrem]
      exact remove_loop_visited_run fuel k (shuffle_arr init_cells (N * N) s1).1 0
        (copy_board g puzzle) (shuffle_arr init_cells (N * N) s1).2
    · intro q x y hq
      rw [hvis] at hq
      exact remove_loop_visited_proper fuel k (shuffle_arr init_cells (N * N) s1).1 0
        (copy_board g puzzle) (shuffle_arr init_cells (N * N) s1).2 q x y hq
    · intro p c s2 h
      rw [hrem] at h
      rw [hvis]
      exact remove_loop_visited_stop fuel k (shuffle_arr init_cells (N * N) s1).1 0
        (copy_board g puzzle) (shuffle_arr init_cells (N * N) s1).2 p c s2 h
    · rw [hvis]
      obtain ⟨rest, hrest⟩ := hpre
      exact nodup_of_append_eq _ rest _ hrest (shuffled_cells_nodup s1)
    · intro hfuel hsol hk
      exact remove_cells_visited_length fuel hfuel g puzzle hsol k hk s1

/-- C17: for a full board `g` with each of `1..9` once per row, column and
box, every `k >= 0` and every stream of draws, `remove_cells` returns a
puzzle with exactly `min k 81` empty cells, and that is the final value of
`removedCount`; every solvability test on a puzzle that holds only values of
`g` succeeds, so no removal is reverted. -/
theorem remove_cells_exact_count (fuel : Nat) (hfuel : 82 ≤ fuel) (g puzzle : Grid)
    (hfull : Full g) (hsol : Solved g) (k : Int) (hk : 0 ≤ k) (s : Rng) :
    (∃ p cnt s1, remove_cells fuel g puzzle k s = some (p, cnt, s1) ∧
      (emptyCount p : Int) = min k 81 ∧ cnt = min k 81) ∧
    (∀ (p1 tmp : Grid) (s2 : Rng), Extends g p1 →
      ∃ b2 s3, solve_board fuel (copy_board p1 tmp) s2 = some (true, b2, s3)) := by
  refine ⟨remove_cells_exact fuel hfuel g puzzle hfull hsol k hk s, ?_⟩
  intro p1 tmp s2 hext
  have hlt : emptyCount (copy_board p1 tmp) < fuel := by
    have := emptyCount_le (copy_board p1 tmp)
    omega
  exact solve_board_complete_below g hsol fuel _ s2 hlt (extends_copy g p1 tmp hext)

/-- Witness of C17: the board of the specification, `k = 36` (the easy
difficulty of `main`) and the stream `0, 1, 2, ...`. -/
theorem remove_cells_exact_count_witness :
    82 ≤ 82 ∧ Full specGrid ∧ Solved specGrid ∧ (0 : Int) ≤ 36 ∧
    (∃ p cnt s1, remove_cells 82 specGrid (fun _ _ => 0) 36 (fun k => k) = some (p, cnt, s1) ∧
      (emptyCount p : Int) = min 36 81 ∧ cnt = min 36 81) ∧
    (∀ (p1 tmp : Grid) (s2 : Rng), Extends specGrid p1 →
      ∃ b2 s3, solve_board 82 (copy_board p1 tmp) s2 = some (true, b2, s3)) :=
  ⟨by decide, specGrid_full, specGrid_solved, by decide,
    remove_cells_exact_count 82 (by decide) specGrid (fun _ _ => 0) specGrid_full
      specGrid_solved 36 (by decide) (fun k => k)⟩

/-- C19: on a puzzle in which no two equal non-zero values share a row,
column or box, an accepted `put` leaves a puzzle with the same property,
whatever the target cell held before; hence the board reached by any
sequence of `put` commands (the rejected ones change nothing) has the
property too and passes `check`. -/
theorem apply_move_keeps_invariant (puzzle fixed : Grid) (hcons : Consistent puzzle) :
    (∀ row col v, (apply_move puzzle fixed row col v).1 = MoveResult.Placed →
      Consistent (apply_move puzzle fixed row col v).2 ∧
      (check (apply_move puzzle fixed row col v).2).1 = true) ∧
    (∀ moves, Consistent (apply_moves fixed moves puzzle) ∧
      (check (apply_moves fixed moves puzzle)).1 = true) := by
  constructor
  · intro row col v _
    have h := apply_move_consistent puzzle fixed row col v hcons
    exact ⟨h, (check_true_iff _).mpr h⟩
  · intro moves
    have h := apply_moves_consistent fixed moves puzzle hcons
    exact ⟨h, (check_true_iff _).mpr h⟩

/-- Witness of C19: the board of the specification with cell `(0, 0)` cleared
and no fixed cell; `put 1 1 5` is accepted there. -/
theorem apply_move_keeps_invariant_witness :
    Consistent (setCell specGrid 0 0 0) ∧
    (apply_move (setCell specGrid 0 0 0) (fun _ _ => 0) 1 1 5).1 = MoveResult.Placed ∧
    Consistent (apply_move (setCell specGrid 0 0 0) (fun _ _ => 0) 1 1 5).2 ∧
    (check (apply_move (setCell specGrid 0 0 0) (fun _ _ => 0) 1 1 5).2).1 = true :=
  ⟨cleared_consistent, by decide,
    (apply_move_keeps_invariant (setCell specGrid 0 0 0) (fun _ _ => 0)
      cleared_consistent).1 1 1 5 (by decide)⟩

/-- C20: undo on failure.  For every board and every stream of draws, when
`solve_board` or `fill_board_backtrack` returns false the board it leaves is
the board it was given. -/
theorem solve_board_undo (fuel : Nat) (g : Grid) (s : Rng) (b1 : Grid) (s1 : Rng) :
    (solve_board fuel g s = some (false, b1, s1) → b1 = g) ∧
    (fill_board_backtrack fuel g s = some (false, b1, s1) → b1 = g) := by
  refine ⟨solve_board_restores fuel g s b1 s1, ?_⟩
  rw [fill_eq_solve]
  exact solve_board_restores fuel g s b1 s1

/-- Witness of C20: on the board of the specification with `(0, 0)` and
`(0, 1)` cleared and a `3` stored in `(1, 1)` the search stores `5` in
`(0, 0)` and calls itself (fuel for one call is not enough), fails on
`(0, 1)`, and returns false with the board as it was. -/
theorem solve_board_undo_witness :
    (solve_board 1 (setCell (setCell (setCell specGrid 0 0 0) 0 1 0) 1 1 3)
      (fun _ => 0)).isNone = true ∧
    ∃ s1, solve_board 3 (setCell (setCell (setCell specGrid 0 0 0) 0 1 0) 1 1 3)
        (fun _ => 0)
      = some (false, setCell (setCell (setCell specGrid 0 0 0) 0 1 0) 1 1 3, s1) := by
  refine ⟨dead_end_recurses, ?_⟩
  have hf := dead_end_fails
  cases hres : solve_board 3 (setCell (setCell (setCell specGrid 0 0 0) 0 1 0) 1 1 3)
      (fun _ => 0) with
  | none =>
    rw [hres] at hf
    cases hf
  | some res =>
    obtain ⟨ok, b1, s1⟩ := res
    rw [hres] at hf
    simp only [Option.map_some', Option.some.injEq] at hf
    subst hf
    have hb := (solve_board_undo 3 _ (fun _ => 0) b1 s1).1 hres
    subst hb
    exact ⟨s1, rfl⟩

/-- C18: session invariant.  The set-up of `main` succeeds (given fuel for the
at most 82 nested calls of the search), and after any finite sequence of
`put`, `hint` and `check` commands the mask and the solution are as the
set-up left them and every fixed cell of the puzzle is non-empty and holds
the value of the solution at its position.  Hence a hint never reports a
fixed cell, and `give_hint` reports nothing only when no cell is empty: a
state with an empty cell in which every empty cell is fixed is not reached. -/
theorem session_invariant (fuel : Nat) (hfuel : 82 ≤ fuel) (diff : Int)
    (full puzzle fixed solution : Grid) (s : Rng) (cmds : List Command) :
    ∃ st0 s1, main_setup fuel diff full puzzle fixed solution s = some (st0, s1) ∧
      (play cmds st0).fixed = st0.fixed ∧
      (play cmds st0).solution = st0.solution ∧
      (∀ r, r < 9 → ∀ c, c < 9 → (play cmds st0).fixed r c ≠ 0 →
        (play cmds st0).puzzle r c ≠ 0 ∧
        (play cmds st0).puzzle r c = (play cmds st0).solution r c) ∧
      (∀ r c v, (give_hint (play cmds st0).puzzle (play cmds st0).solution
          (play cmds st0).fixed).1 = some (r, c, v) →
        1 ≤ r ∧ 1 ≤ c ∧ (play cmds st0).fixed (r - 1) (c - 1) = 0) ∧
      ((give_hint (play cmds st0).puzzle (play cmds st0).solution
          (play cmds st0).fixed).1 = none → Full (play cmds st0).puzzle) := by
  obtain ⟨st0, s1, hsetup, hinit⟩ :=
    main_setup_result fuel hfuel diff full puzzle fixed solution s
  obtain ⟨hfix, hsol, hcells⟩ := play_frame cmds st0
  have hinv : ∀ r, r < 9 → ∀ c, c < 9 → (play cmds st0).fixed r c ≠ 0 →
      (play cmds st0).puzzle r c ≠ 0 ∧
      (play cmds st0).puzzle r c = (play cmds st0).solution r c := by
    intro r hr c hc hf
    rw [hfix] at hf
    rw [hcells r c hf, hsol]
    exact hinit r hr c hc hf
  refine ⟨st0, s1, hsetup, hfix, hsol, hinv, ?_, ?_⟩
  · intro r c v hrep
    rcases give_hint_cases (play cmds st0).puzzle (play cmds st0).solution
      (play cmds st0).fixed with ⟨r0, c0, _, _, _, hfree, _, h⟩ | ⟨_, h⟩
    · rw [h] at hrep
      simp only [Option.some.injEq, Prod.mk.injEq] at hrep
      obtain ⟨rfl, rfl, _⟩ := hrep
      exact ⟨by omega, by omega, by simpa using hfree⟩
    · rw [h] at hrep
      cases hrep
  · intro hnone
    rcases give_hint_cases (play cmds st0).puzzle (play cmds st0).solution
      (play cmds st0).fixed with ⟨r0, c0, _, _, _, _, _, h⟩ | ⟨hno, _⟩
    · rw [h] at hnone
      cases hnone
    · intro r hr c hc h0
      by_cases hf : (play cmds st0).fixed r c = 0
      · exact hno r c hr hc ⟨h0, hf⟩
      · exact (hinv r hr c hc hf).1 h0

/-- Witness of C18: fuel 82, the medium difficulty, arrays that hold `0`
before the set-up, the stream `0, 1, 2, ...` and the commands `put 1 1 5`,
`hint`, `check`. -/
theorem session_invariant_witness :
    82 ≤ 82 ∧
    ∃ st0 s1, main_setup 82 2 (fun _ _ => 0) (fun _ _ => 0) (fun _ _ => 0) (fun _ _ => 0)
        (fun k => k) = some (st0, s1) ∧
      (play [Command.put 1 1 5, Command.hint, Command.check] st0).fixed = st0.fixed ∧
      (play [Command.put 1 1 5, Command.hint, Command.check] st0).solution = st0.solution ∧
      (∀ r, r < 9 → ∀ c, c < 9 →
        (play [Command.put 1 1 5, Command.hint, Command.check] st0).fixed r c ≠ 0 →
        (play [Command.put 1 1 5, Command.hint, Command.check] st0).puzzle r c ≠ 0 ∧
        (play [Command.put 1 1 5, Command.hint, Command.check] st0).puzzle r c =
          (play [Command.put 1 1 5, Command.hint, Command.check] st0).solution r c) := by
  obtain ⟨st0, s1, h1, h2, h3, h4, _, _⟩ :=
    session_invariant 82 (by decide) 2 (fun _ _ => 0) (fun _ _ => 0) (fun _ _ => 0)
      (fun _ _ => 0) (fun k => k) [Command.put 1 1 5, Command.hint, Command.check]
  exact ⟨by decide, st0, s1, h1, h2, h3, h4⟩

end Sudoku
